import Mathlib

/-!
Shallow embedding of the muscle-app workout log (src/src/App.tsx, the
local-storage variant, and src/unnamed/part_000, the cloud variant).

JavaScript numbers are modelled as `JNum` (NaN or a rational), dynamic
JavaScript values as `JsValue`.  Strings are Lean `String`s; the string
operations the source uses (`slice`, `trim`, `split`, `endsWith`,
`replace`) are given explicit character-level models so that proofs can
compute.  Fallible operations (`JSON.parse`, the `parseCSV` crash on
empty input) are modelled with `Option`.
-/

namespace MuscleApp

/-- A JavaScript number: either NaN or a finite value (modelled as ℚ). -/
inductive JNum where
  | nan : JNum
  | fin (q : ℚ) : JNum
deriving DecidableEq, Repr

/-- A dynamic JavaScript value, as far as the app manipulates them.
Objects are association lists of fields. -/
inductive JsValue where
  | vstr (s : String) : JsValue
  | vnum (n : JNum) : JsValue
  | vbool (b : Bool) : JsValue
  | vnull : JsValue
  | vundef : JsValue
  | varr (xs : List JsValue) : JsValue
  | vobj (fields : List (String × JsValue)) : JsValue

/-- JavaScript truthiness. Objects and arrays are always truthy. -/
def jsTruthy : JsValue → Bool
  | .vstr s => s ≠ ""
  | .vnum .nan => false
  | .vnum (.fin q) => q ≠ 0
  | .vbool b => b
  | .vnull => false
  | .vundef => false
  | .varr _ => true
  | .vobj _ => true

/-- Property access `v?.k`: `undefined` on anything that is not an object
with the field. -/
def getProp (v : JsValue) (k : String) : JsValue :=
  match v with
  | .vobj fields => ((fields.find? (fun p => p.1 = k)).map (fun p => p.2)).getD .vundef
  | _ => (.vundef)

/-- `a || b`. -/
def jsOr (a b : JsValue) : JsValue := if jsTruthy a then a else b

/-! ### Characters and JS `Number(string)` / `String(number)` -/

def digitChar (d : ℕ) : Char := Char.ofNat (48 + d)

def isDig (c : Char) : Bool := decide ('0' ≤ c) && decide (c ≤ '9')

def charDigit (c : Char) : ℕ := c.toNat - 48

/-- Whitespace stripped by JavaScript `String.prototype.trim` /
`Number(string)` (the characters the app can actually meet). -/
def isWs (c : Char) : Bool := c = ' ' || c = '\t' || c = '\n' || c = '\r'

/-- Character-level model of JS `trim`. -/
def trimChars (cs : List Char) : List Char :=
  ((cs.dropWhile isWs).reverse.dropWhile isWs).reverse

/-- Big-endian decimal digit characters of `n`, with `fuel ≥ n`;
empty list for `0`. -/
def natChars : ℕ → ℕ → List Char
  | 0, _ => []
  | _ + 1, 0 => []
  | fuel + 1, n + 1 =>
    natChars fuel ((n + 1) / 10) ++ [digitChar ((n + 1) % 10)]

/-- Decimal representation of a natural number, as JS prints it. -/
def natStrChars (n : ℕ) : List Char := if n = 0 then ['0'] else natChars n n

/-- One step of reading a big-endian digit string. -/
def digitsValStep (acc : Option ℕ) (c : Char) : Option ℕ :=
  match acc with
  | some a => if isDig c then some (10 * a + charDigit c) else none
  | none => none

/-- Value of a big-endian digit-character list; `none` on a non-digit. -/
def digitsVal (cs : List Char) : Option ℕ := cs.foldl digitsValStep (some 0)

/-- Smallest exponent `k < 64` with `d ∣ 10 ^ k`, if any.  Every weight a
JS float can hold has such an exponent well below 64. -/
def decExp (d : ℕ) : Option ℕ := (List.range 64).find? (fun k => decide (d ∣ 10 ^ k))

/-- The digit part of JS `String(n/d)` for `0 ≤ n/d` in lowest terms:
integer digits, and (when the denominator divides a power of ten) the
zero-padded fractional digits. -/
def ratCharsCore (n d : ℕ) : List Char :=
  match decExp d with
  | none => natStrChars n ++ ['/'] ++ natStrChars d
  | some 0 => natStrChars n
  | some (k + 1) =>
    let m : ℕ := n * (10 ^ (k + 1) / d)
    let fd : List Char := natChars (m % 10 ^ (k + 1)) (m % 10 ^ (k + 1))
    natStrChars (m / 10 ^ (k + 1)) ++ '.' ::
      (List.replicate (k + 1 - fd.length) '0' ++ fd)

/-- Character-level model of JS `String(q)` for a finite number. -/
def ratChars (q : ℚ) : List Char :=
  (if q < 0 then ['-'] else []) ++ ratCharsCore q.num.natAbs q.den

/-- JS `String(n)` for a number. -/
def numChars : JNum → List Char
  | .nan => ['N', 'a', 'N']
  | .fin q => ratChars q

def numToStr (n : JNum) : String := ⟨numChars n⟩

/-- The unsigned part of JS `Number(string)`: decimal digits, an optional
point, more digits. -/
def parseUnsigned (cs : List Char) : Option ℚ :=
  let ic := cs.takeWhile isDig
  let rest := cs.dropWhile isDig
  if rest = [] then
    if ic.isEmpty then none else (digitsVal ic).map (fun i => (i : ℚ))
  else if rest.headD ' ' = '.' then
    let fr := rest.tail
    if ic.isEmpty && fr.isEmpty then none
    else
      match digitsVal ic, digitsVal fr with
      | some i, some f => some ((i : ℚ) + (f : ℚ) / 10 ^ fr.length)
      | _, _ => none
  else none

/-- Character-level model of JS `Number(string)` (decimal literals; the
empty / all-whitespace string is `0`, anything else unparseable is NaN). -/
def parseNumChars (cs0 : List Char) : JNum :=
  let cs := trimChars cs0
  if cs = [] then .fin 0
  else if cs.headD ' ' = '-' then
    (parseUnsigned cs.tail).elim .nan (fun q => .fin (-q))
  else if cs.headD ' ' = '+' then (parseUnsigned cs.tail).elim .nan .fin
  else (parseUnsigned cs).elim .nan .fin

def parseNumber (s : String) : JNum := parseNumChars s.data

/-- JS `Number(v)` coercion on a dynamic value. -/
def jsNumber : JsValue → JNum
  | .vnum n => n
  | .vstr s => parseNumber s
  | .vnull => .fin 0
  | .vundef => .nan
  | .vbool b => .fin (if b then 1 else 0)
  | .varr [] => .fin 0
  | .varr (_ :: _) => .nan
  | .vobj _ => .nan

/-- JS `String(v)` coercion (arrays only as far as the app needs them). -/
def jsToStr : JsValue → String
  | .vstr s => s
  | .vnum n => numToStr n
  | .vbool b => if b then "true" else "false"
  | .vnull => "null"
  | .vundef => "undefined"
  | .varr _ => ""
  | .vobj _ => "[object Object]"

/-- Character-level model of JS `s.slice(0, 10)`. -/
def strTake10 (s : String) : String := ⟨s.data.take 10⟩

/-- Character-level model of JS `s.trim()`. -/
def jsTrim (s : String) : String := ⟨trimChars s.data⟩

/-- Character-level model of JS `s.endsWith(p)`. -/
def jsEndsWith (s p : String) : Bool := p.data.isSuffixOf s.data

/-! ### The record model -/

/-- The nine canonical exercise labels (`EXERCISES` in the source). -/
def EXERCISES : List String :=
  ["ベンチプレス", "スクワット", "デッドリフト", "ショルダープレス",
   "ローイング", "サイドレイズ", "ライイングエクステンション",
   "EZバーカール", "その他"]

/-- `normalizeExercise`: membership test against the canonical list, the
catch-all label for anything else. -/
def normalizeExercise (v : JsValue) : String :=
  match v with
  | .vstr s => if EXERCISES.contains s then s else "その他"
  | _ => "その他"

/-- The `Log` record (`type Log` in the source); weight and reps are
finite numbers here, the NaN-carrying import path is treated at the
`JsValue` level. -/
structure Log where
  id : String
  date : String
  exercise : String
  weight : ℚ
  reps : ℚ
  note : Option String
deriving DecidableEq, Repr

/-- The JSON object form of a `Log` (what `JSON.parse(JSON.stringify l)`
yields: an absent note has no field, because `JSON.stringify` drops
`undefined` properties). -/
def logToJs (l : Log) : JsValue :=
  .vobj
    ([("id", .vstr l.id), ("date", .vstr l.date), ("exercise", .vstr l.exercise),
      ("weight", .vnum (.fin l.weight)), ("reps", .vnum (.fin l.reps))] ++
      (match l.note with
       | some s => [("note", .vstr s)]
       | none => []))

def isStrV : JsValue → Bool
  | .vstr _ => true
  | _ => false

def isNumV : JsValue → Bool
  | .vnum _ => true
  | _ => false

/-- `EXERCISES.includes(x.exercise)` on a dynamic value: only an exact
canonical string matches. -/
def exMember : JsValue → Bool
  | .vstr s => EXERCISES.contains s
  | _ => false

/-- The `isLog` type guard: `x && typeof x.id === "string" && typeof
x.date === "string" && typeof x.weight === "number" && typeof x.reps ===
"number" && EXERCISES.includes(x.exercise)`. -/
def isLog (x : JsValue) : Bool :=
  jsTruthy x && isStrV (getProp x "id") && isStrV (getProp x "date") &&
    isNumV (getProp x "weight") && isNumV (getProp x "reps") &&
    exMember (getProp x "exercise")

/-! ### CSV encode (`toCSV`) -/

/-- `note.replace(/"/g, '""')`: double every double quote. -/
def escQuotes : List Char → List Char
  | [] => []
  | c :: rest =>
    if c = '"' then '"' :: '"' :: escQuotes rest else c :: escQuotes rest

/-- The `/[",\n]/` test deciding whether a field is quoted. -/
def needsQuote (cs : List Char) : Bool :=
  cs.any (fun c => c = '"' || c = ',' || c = '\n')

/-- Wrap a field in double quotes when it contains a quote, comma or
newline. -/
def csvField (cs : List Char) : List Char :=
  if needsQuote cs then '"' :: cs ++ ['"'] else cs

/-- The five column values of one CSV row, in header order; only the
note is quote-escaped (as in the source). -/
def csvRowChars (l : Log) : List (List Char) :=
  [l.date.data, l.exercise.data, ratChars l.weight, ratChars l.reps,
   escQuotes ((l.note.getD "").data)]

def csvHeaderChars : List Char := "date,exercise,weight,reps,note".data

/-- The encoded CSV line of one log: its five fields, quoted as needed,
joined by commas. -/
def csvLineOf (l : Log) : List Char :=
  List.intercalate [','] ((csvRowChars l).map csvField)

/-- `toCSV`: header line, then one line per log, joined by newlines. -/
def toCSV (logs : List Log) : String :=
  ⟨csvHeaderChars ++ '\n' :: List.intercalate ['\n'] (logs.map csvLineOf)⟩

/-! ### CSV decode (`parseCSV`) -/

/-- `text.replace(/\r\n?/g, "\n")`. -/
def normNl : List Char → List Char
  | [] => []
  | '\r' :: '\n' :: rest => '\n' :: normNl rest
  | '\r' :: rest => '\n' :: normNl rest
  | c :: rest => c :: normNl rest

/-- JS `s.split(sep)` for a one-character separator. -/
def splitOnChar (sep : Char) : List Char → List (List Char)
  | [] => [[]]
  | c :: rest =>
    if c = sep then [] :: splitOnChar sep rest
    else
      match splitOnChar sep rest with
      | [] => [[c]]
      | r :: rs => (c :: r) :: rs

/-- `s.split("\n")`. -/
def splitNl : List Char → List (List Char) := splitOnChar '\n'

/-- `s.split(",")` (the plain split used on the header line). -/
def splitComma : List Char → List (List Char) := splitOnChar ',' 

/-- `text.replace(/\r\n?/g,"\n").split("\n").filter(Boolean)`. -/
def csvLines (text : String) : List (List Char) :=
  (splitNl (normNl text.data)).filter (fun l => l ≠ [])

/-- The per-line field scanner of `parseCSV`: `cur` is the field being
built, the `Bool` is the inside-quotes flag, `row` the fields already
pushed. -/
def scanLine : List Char → List Char → Bool → List (List Char) → List (List Char)
  | [], cur, _, row => row ++ [cur]
  | '"' :: '"' :: rest, cur, true, row => scanLine rest (cur ++ ['"']) true row
  | '"' :: rest, cur, true, row => scanLine rest cur false row
  | c :: rest, cur, true, row => scanLine rest (cur ++ [c]) true row
  | c :: rest, cur, false, row =>
    if c = ',' then scanLine rest [] false (row ++ [cur])
    else if c = '"' then scanLine rest cur true row
    else scanLine rest (cur ++ [c]) false row

/-- One decoded CSV row (`CsvRow` in the source; `parseCSV` always fills
the note with `?? ""`). -/
structure CsvRow where
  date : String
  exercise : String
  weight : String
  reps : String
  note : String
deriving DecidableEq, Repr

/-- Header-name lookup: `header.findIndex(h => h === name)`, with the
`-1` miss folded into `Option`. -/
def headerIdx (header : List String) (name : String) : Option ℕ :=
  header.findIdx? (fun h => h = name)

/-- `row[i] ?? ""` (also covering `row[-1]`). -/
def rowGet (row : List String) : Option ℕ → String
  | some i => row.getD i ""
  | none => ""

/-- `lines[0].split(",").map(s => s.trim())`. -/
def csvHeaderFields (h : List Char) : List String :=
  (splitComma h).map (fun cs => jsTrim ⟨cs⟩)

/-- Decode one data line against the header fields. -/
def csvRowOf (header : List String) (line : List Char) : CsvRow :=
  let row := (scanLine line [] false []).map (fun cs => (⟨cs⟩ : String))
  { date := rowGet row (headerIdx header "date"),
    exercise := rowGet row (headerIdx header "exercise"),
    weight := rowGet row (headerIdx header "weight"),
    reps := rowGet row (headerIdx header "reps"),
    note := rowGet row (headerIdx header "note") }

/-- `parseCSV`.  `none` models the `TypeError` the source throws when
`lines` is empty (`lines[0].split` on `undefined`). -/
def parseCSV (text : String) : Option (List CsvRow) :=
  match csvLines text with
  | [] => none
  | h :: rest => some (rest.map (csvRowOf (csvHeaderFields h)))

/-- One row of `csvRowsToLogs`: numeric coercion, date truncation,
exercise normalization, generated identifier (`suffix` stands for the
`Math.random` part), and the validity guard. -/
def csvRowToLog (suffix : String) (r : CsvRow) : Option Log :=
  let w := parseNumber r.weight
  let rp := parseNumber r.reps
  let date := strTake10 (jsToStr (jsOr (.vstr r.date) (.vstr "")))
  let ex := normalizeExercise (.vstr r.exercise)
  let id := date ++ "-" ++ ex ++ "-" ++ suffix
  let note := if r.note ≠ "" && jsTrim r.note ≠ "" then some r.note else none
  match w, rp with
  | .fin wq, .fin rq =>
    if date = "" || wq ≤ 0 || rq ≤ 0 then none
    else some { id := id, date := date, exercise := ex, weight := wq,
                reps := rq, note := note }
  | _, _ => none

/-- `csvRowsToLogs`: map rows through `csvRowToLog`, dropping the `null`
results (`.filter(Boolean)`). -/
def csvRowsToLogs (rnd : ℕ → String) (rows : List CsvRow) : List Log :=
  rows.enum.filterMap (fun p => csvRowToLog (rnd p.1) p.2)

/-! ### Merge (`mergeLogs`) -/

/-- JS `Map.set`: update in place when the key exists, append otherwise. -/
def mapSet {α : Type} (m : List (String × α)) (k : String) (v : α) :
    List (String × α) :=
  if m.any (fun p => p.1 = k) then
    m.map (fun p => if p.1 = k then (k, v) else p)
  else m ++ [(k, v)]

def mapFind {α : Type} (m : List (String × α)) (k : String) : Option α :=
  (m.find? (fun p => p.1 = k)).map (fun p => p.2)

/-- The keyed pass of `mergeLogs`: `[...prev, ...incoming].forEach(l => {
if (!isLog(l)) return; map.set(l.id, l); })`. -/
def buildMap (xs : List Log) : List (String × Log) :=
  xs.foldl (fun m l => if isLog (logToJs l) then mapSet m l.id l else m) []

/-- One entry may come before another in the date-descending sort. -/
def dateGe (a b : Log) : Prop := b.date ≤ a.date

instance : DecidableRel dateGe := fun a b => by unfold dateGe; infer_instance

instance : IsTotal Log dateGe := ⟨fun a b => le_total b.date a.date⟩

instance : IsTrans Log dateGe := ⟨fun _ _ _ h h' => le_trans h' h⟩

/-- `mergeLogs`: keyed overwrite, then a stable sort by date descending
(`insertionSort` models the engine's stable `Array.prototype.sort`). -/
def mergeLogs (prev incoming : List Log) : List Log :=
  List.insertionSort dateGe ((buildMap (prev ++ incoming)).map (fun p => p.2))

/-! ### JSON export / import -/

/-- The `{version, logs}` payload written by `exportJSON` (after the
`JSON.parse ∘ JSON.stringify` round through text). -/
def exportPayload (logs : List Log) : JsValue :=
  .vobj [("version", .vnum (.fin 2)), ("logs", .varr (logs.map logToJs))]

/-- Array extraction of the JSON import: a bare array, or the `logs`
field of a (truthy) object. -/
def importArr (v : JsValue) : List JsValue :=
  match v with
  | .varr xs => xs
  | .vobj fields =>
    match getProp (.vobj fields) "logs" with
    | .varr xs => xs
    | _ => []
  | _ => []

/-- The per-element normalisation of the JSON import (`arr.map(l => ...)`);
`freshId` stands for the `Date.now()-Math.random()` fallback. -/
def importElemV (freshId : String) (l : JsValue) : JsValue :=
  .vobj
    [("id", match getProp l "id" with
            | .vstr s => .vstr s
            | _ => .vstr freshId),
     ("date", .vstr (strTake10 (jsToStr (jsOr (getProp l "date") (.vstr ""))))),
     ("exercise", .vstr (normalizeExercise (getProp l "exercise"))),
     ("weight", .vnum (jsNumber (getProp l "weight"))),
     ("reps", .vnum (jsNumber (getProp l "reps"))),
     ("note", match getProp l "note" with
              | .vstr s => if jsTrim s ≠ "" then .vstr s else .vundef
              | _ => .vundef)]

/-- The JSON import pipeline at the value level: extract, map, filter by
`isLog`. -/
def importJSONv (fresh : ℕ → String) (v : JsValue) : List JsValue :=
  (((importArr v).enum.map (fun p => importElemV (fresh p.1) p.2)).filter isLog)

/-- Read an import-shaped object back into the `Log` record (the source
just uses the filtered array as `Log[]`). -/
def jsValToLog (v : JsValue) : Option Log :=
  match getProp v "id", getProp v "date", getProp v "exercise",
      getProp v "weight", getProp v "reps" with
  | .vstr i, .vstr d, .vstr e, .vnum (.fin w), .vnum (.fin r) =>
    some { id := i, date := d, exercise := e, weight := w, reps := r,
           note := match getProp v "note" with
                   | .vstr s => some s
                   | _ => none }
  | _, _, _, _, _ => none

/-- `incoming` of the JSON branch of `onImportFile`, as `Log` records. -/
def importJSON (fresh : ℕ → String) (v : JsValue) : List Log :=
  (importJSONv fresh v).filterMap jsValToLog

/-! ### The import dispatcher (`onImportFile`) -/

/-- `onImportFile`, as a function of the file name, the parsed JSON
(`none` when `JSON.parse` throws), the raw text, and the previous
collection; returns the new collection and the toast message. -/
def importFile (name : String) (parsed : Option JsValue) (text : String)
    (fresh : ℕ → String) (rnd : ℕ → String) (prev : List Log) :
    List Log × String :=
  if jsEndsWith name ".json" then
    match parsed with
    | none => (prev, "インポートに失敗したよ")
    | some obj =>
      let incoming := importJSON fresh obj
      (mergeLogs prev incoming,
       "JSONを" ++ toString incoming.length ++ "件インポートしたよ")
  else if jsEndsWith name ".csv" then
    match parseCSV text with
    | none => (prev, "インポートに失敗したよ")
    | some rows =>
      let incoming := csvRowsToLogs rnd rows
      (mergeLogs prev incoming,
       "CSVを" ++ toString incoming.length ++ "件インポートしたよ")
  else (prev, ".json か .csv を選んでね")

/-! ### Dashboard aggregates -/

/-- `n > 0` on a JS number (false for NaN). -/
def jnPos : JNum → Bool
  | .fin q => decide (0 < q)
  | .nan => false

/-- Day-number to `(year, month, day)` in the proleptic Gregorian
calendar (the arithmetic `Date` performs for `setDate`/`getFullYear`
etc.); day 0 is 1970-01-01. -/
def civilFromDays (z0 : ℤ) : ℤ × ℕ × ℕ :=
  let z : ℤ := z0 + 719468
  let era : ℤ := (if 0 ≤ z then z else z - 146096) / 146097
  let doe : ℕ := (z - era * 146097).toNat
  let yoe : ℕ := (doe - doe / 1460 + doe / 36524 - doe / 146096) / 365
  let y : ℤ := (yoe : ℤ) + era * 400
  let doy : ℕ := doe - (365 * yoe + yoe / 4 - yoe / 100)
  let mp : ℕ := (5 * doy + 2) / 153
  let d : ℕ := doy - (153 * mp + 2) / 5 + 1
  let m : ℕ := if mp < 10 then mp + 3 else mp - 9
  (y + (if m ≤ 2 then 1 else 0), m, d)

/-- `String(x).padStart(2, "0")` for the month/day components. -/
def pad2 (n : ℕ) : String := if n < 10 then "0" ++ toString n else toString n

/-- `formatDate`: zero-padded `YYYY-MM-DD`. -/
def formatDate (ymd : ℤ × ℕ × ℕ) : String :=
  toString ymd.1 ++ "-" ++ pad2 ymd.2.1 ++ "-" ++ pad2 ymd.2.2

/-- The 30 window dates of `dailyData`, oldest first (the loop runs
`i = 29 … 0` over `today - i`). -/
def windowDates (today : ℤ) : List String :=
  (List.range 30).map (fun j => formatDate (civilFromDays (today - 29 + j)))

/-- The window map seeded with 0 for each window date. -/
def volMapInit (today : ℤ) : List (String × ℚ) :=
  (windowDates today).foldl (fun m ds => mapSet m ds 0) []

/-- One log of the `dailyData` accumulation: add `weight*reps` to the
log's date when that date is a key of the window map (`map.has`). -/
def dailyStep (m : List (String × ℚ)) (l : Log) : List (String × ℚ) :=
  if m.any (fun p => p.1 = l.date) then
    mapSet m l.date ((mapFind m l.date).getD 0 + l.weight * l.reps)
  else m

/-- `dailyData`: seed the window with zeros, then accumulate each log. -/
def dailyData (today : ℤ) (logs : List Log) : List (String × ℚ) :=
  logs.foldl dailyStep (volMapInit today)

/-- One entry of the `Record<Exercise, number>` fold: update the entry's
exercise when the weight is strictly larger.  A key never present is
never updated (`l.weight > undefined` is false). -/
def bestStep (res : List (String × ℚ)) (l : Log) : List (String × ℚ) :=
  match mapFind res l.exercise with
  | some q => if q < l.weight then mapSet res l.exercise l.weight else res
  | none => res

/-- The record fold shared by `bestByExercise`, `todayBestByExercise`
and `prevBestByExercise`: start every canonical exercise at 0, keep the
maximum weight. -/
def bestFold (xs : List Log) : List (String × ℚ) :=
  xs.foldl bestStep (EXERCISES.map (fun e => (e, (0 : ℚ))))

/-- `a > b` on the two record lookups (false when either is absent). -/
def recGt (a b : Option ℚ) : Bool :=
  match a, b with
  | some x, some y => decide (y < x)
  | _, _ => false

/-- `logsForDate`: the logs of the selected date. -/
def logsOn (logs : List Log) (dateStr : String) : List Log :=
  logs.filter (fun l => l.date = dateStr)

/-- `logs.filter(l => l.date !== dateStr)` feeding `prevBestByExercise`. -/
def logsOff (logs : List Log) (dateStr : String) : List Log :=
  logs.filter (fun l => l.date ≠ dateStr)

/-- `prSet`: the canonical exercises whose best of the selected date is
positive and strictly above the best of all other dates. -/
def prSet (logs : List Log) (dateStr : String) : List String :=
  EXERCISES.filter (fun ex =>
    recGt (mapFind (bestFold (logsOn logs dateStr)) ex) (some 0) &&
      recGt (mapFind (bestFold (logsOn logs dateStr)) ex)
        (mapFind (bestFold (logsOff logs dateStr)) ex))

/-! ### One-shot migration (cloud variant, src/unnamed/part_000) -/

/-- A row submitted to the `logs` table by the migration effect
(`user_id` plus the candidate fields; the note field is `null` when
empty, which `Option` models). -/
structure MigRow where
  date : String
  exercise : String
  weight : JNum
  reps : JNum
  note : Option String
  userId : String
deriving DecidableEq, Repr

/-- The per-entry mapping of the migration effect. -/
def migRow (userId : String) (l : JsValue) : MigRow :=
  { date := strTake10 (jsToStr (jsOr (getProp l "date") (.vstr ""))),
    exercise := normalizeExercise (getProp l "exercise"),
    weight := jsNumber (getProp l "weight"),
    reps := jsNumber (getProp l "reps"),
    note := match getProp l "note" with
            | .vstr s => if jsTrim s ≠ "" then some s else none
            | _ => none,
    userId := userId }

/-- `.filter(r => r.date && r.weight > 0 && r.reps > 0)` over the mapped
rows. -/
def migRows (userId : String) (arr : List JsValue) : List MigRow :=
  (arr.map (migRow userId)).filter
    (fun r => r.date ≠ "" && jnPos r.weight && jnPos r.reps)

/-- The migration effect: `snapshot` is the parsed legacy localStorage
value (`none`: key absent or `JSON.parse` threw, so nothing happens),
`insertOk` is whether the awaited batch insert succeeded (the external
adapter reports failure by rejection, so `.then` only runs on success).
Returns the submitted batch (when one is submitted) and whether the
legacy snapshot was removed. -/
def migrationStep (snapshot : Option JsValue) (userId : String)
    (insertOk : Bool) : Option (List MigRow) × Bool :=
  match snapshot with
  | none => (none, false)
  | some parsed =>
    match snapArr parsed with
    | none => (none, false)
    | some xs =>
      if xs.length = 0 then (none, false)
      else (some (migRows userId xs), insertOk)
where
  /-- `Array.isArray(parsed) ? parsed : parsed?.logs`, kept only when an
  array. -/
  snapArr (parsed : JsValue) : Option (List JsValue) :=
    match parsed with
    | .varr xs => some xs
    | _ =>
      match getProp parsed "logs" with
      | .varr xs => some xs
      | _ => none

/-! ### Specification-side definitions used by the theorems -/

/-- Big-endian value of a digit-character list (total companion of
`digitsVal`). -/
def beVal (a : ℕ) (cs : List Char) : ℕ :=
  cs.foldl (fun x c => 10 * x + charDigit c) a

/-- The characters `ratChars` can emit. -/
def numChar (c : Char) : Bool := isDig c || c = '-' || c = '.' || c = '/'

/-- A denominator whose decimal expansion terminates (every JS float
satisfies this). -/
def ratOK (q : ℚ) : Prop := decExp q.den ≠ none

instance : DecidablePred ratOK := fun q => by unfold ratOK; infer_instance

/-- Characters that survive a CSV round trip outside of quoting. -/
def cleanChars (cs : List Char) : Prop :=
  ∀ c ∈ cs, c ≠ ',' ∧ c ≠ '"' ∧ c ≠ '\n' ∧ c ≠ '\r'

instance : DecidablePred cleanChars := fun cs => by
  unfold cleanChars; infer_instance

/-- A well-formed stored date: non-empty, at most 10 characters (the
`YYYY-MM-DD` format), free of CSV metacharacters. -/
def dateOK (s : String) : Prop :=
  s ≠ "" ∧ s.length ≤ 10 ∧ cleanChars s.data

/-- The §3 model invariant of a valid log entry: well-formed date,
canonical exercise, positive weight and reps, and a note that is not
whitespace-only. -/
def validLog (l : Log) : Prop :=
  dateOK l.date ∧ l.exercise ∈ EXERCISES ∧ 0 < l.weight ∧ 0 < l.reps ∧
    ∀ s, l.note = some s → jsTrim s ≠ ""

instance : DecidablePred validLog := fun l => by
  unfold validLog dateOK; infer_instance

/-- The last entry of `xs` carrying identifier `k`, if any. -/
def lastWithId (xs : List Log) (k : String) : Option Log :=
  xs.foldl (fun acc l => if l.id = k then some l else acc) none

/-- The last entry of `xs` carrying identifier `k` among those passing
the `isLog` guard (what the keyed overwrite of `mergeLogs` retains). -/
def lastValidWithId (xs : List Log) (k : String) : Option Log :=
  xs.foldl
    (fun acc l => if isLog (logToJs l) && l.id = k then some l else acc) none

/-- Best (maximum) weight of exercise `ex` among `xs`, 0 when absent. -/
def bestWeightOf (xs : List Log) (ex : String) : ℚ :=
  ((xs.filter (fun l => l.exercise = ex)).map Log.weight).foldr max 0

/-- The CSV row a log encodes to (what `parseCSV` recovers from
`toCSV`). -/
def rowOfLog (l : Log) : CsvRow :=
  { date := l.date, exercise := l.exercise, weight := ⟨ratChars l.weight⟩,
    reps := ⟨ratChars l.reps⟩, note := l.note.getD "" }

/-- Total volume (`Σ weight*reps`) of the logs dated `k`. -/
def volOf (logs : List Log) (k : String) : ℚ :=
  ((logs.filter (fun l => l.date = k)).map (fun l => l.weight * l.reps)).sum

/-- A valid entry whose note contains a newline (used against the
unamended CSV round-trip claim). -/
def cexLog : Log :=
  { id := "x", date := "2024-02-01", exercise := "スクワット",
    weight := 100, reps := 3, note := some "a\nb" }

/-- Round-trip sample: a note containing a comma (the CSV quoting path). -/
def rtLog1 : Log :=
  { id := "old1", date := "2024-02-01", exercise := "ベンチプレス",
    weight := mkRat 165 2, reps := 5, note := some "good, form" }

/-- Round-trip sample: a note containing double quotes (the escaping path). -/
def rtLog2 : Log :=
  { id := "old2", date := "2024-02-02", exercise := "スクワット",
    weight := 100, reps := 3, note := some "say \"hi\"" }

/-- Round-trip sample: no note. -/
def rtLog3 : Log :=
  { id := "old3", date := "2024-02-03", exercise := "デッドリフト",
    weight := 120, reps := 1, note := none }

/-! ## Theorems -/

/-- **C9** For every imported file whose name ends in neither `.json`
nor `.csv`, the import surfaces the rejection toast and returns the
previous collection unchanged (no merge happens). -/
theorem importFile_rejects_unknown_extension
    (name : String) (parsed : Option JsValue) (text : String)
    (fresh rnd : ℕ → String) (prev : List Log)
    (hj : jsEndsWith name ".json" = false)
    (hc : jsEndsWith name ".csv" = false) :
    importFile name parsed text fresh rnd prev =
      (prev, ".json か .csv を選んでね") := by
  simp [importFile, hj, hc]

/-- Witness for C9 at a concrete file name. -/
theorem importFile_rejects_unknown_extension_witness :
    importFile "a.txt" none "x" (fun _ => "") (fun _ => "")
        [{ id := "1", date := "2024-01-01", exercise := "その他",
           weight := 1, reps := 1, note := none }] =
      ([{ id := "1", date := "2024-01-01", exercise := "その他",
          weight := 1, reps := 1, note := none }],
       ".json か .csv を選んでね") :=
  importFile_rejects_unknown_extension "a.txt" none "x" (fun _ => "")
    (fun _ => "") _ (by decide) (by decide)

/-- **C8** During the one-shot migration, every row of the submitted
batch has a non-empty date and strictly positive weight and reps (every
entry failing one of these is dropped), and the legacy snapshot is
removed only when the batch insert succeeded. -/
theorem migration_filters_and_deletes_on_success
    (snapshot : Option JsValue) (userId : String) (insertOk : Bool) :
    ((migrationStep snapshot userId insertOk).2 = true → insertOk = true) ∧
      (∀ rows, (migrationStep snapshot userId insertOk).1 = some rows →
        ∀ r ∈ rows, r.date ≠ "" ∧ jnPos r.weight = true ∧
          jnPos r.reps = true) := by
  constructor
  · intro hdel
    unfold migrationStep at hdel
    split at hdel
    · simp at hdel
    · split at hdel
      · simp at hdel
      · split at hdel
        · simp at hdel
        · exact hdel
  · intro rows hrows r hr
    unfold migrationStep at hrows
    split at hrows
    · simp at hrows
    · split at hrows
      · simp at hrows
      · split at hrows
        · simp at hrows
        · obtain rfl : migRows _ _ = rows := by simpa using hrows
          have hcond := (List.mem_filter.mp hr).2
          simp only [Bool.and_eq_true, decide_eq_true_eq] at hcond
          exact ⟨hcond.1.1, hcond.1.2, hcond.2⟩

/-- Witness for C8: a concrete two-entry snapshot (one invalid entry)
with a succeeding insert. -/
theorem migration_filters_and_deletes_on_success_witness :
    ({ date := "2024-01-01", exercise := "その他", weight := .fin 50,
       reps := .fin 5, note := none, userId := "u" } : MigRow).date ≠ "" ∧
      jnPos ({ date := "2024-01-01", exercise := "その他", weight := .fin 50,
               reps := .fin 5, note := none, userId := "u" } : MigRow).weight
        = true ∧
      jnPos ({ date := "2024-01-01", exercise := "その他", weight := .fin 50,
               reps := .fin 5, note := none, userId := "u" } : MigRow).reps
        = true :=
  (migration_filters_and_deletes_on_success
      (some (.varr
        [.vobj [("date", .vstr "2024-01-01"), ("exercise", .vstr "押し"),
                ("weight", .vnum (.fin 50)), ("reps", .vnum (.fin 5))],
         .vobj [("date", .vstr "2024-01-02"), ("exercise", .vstr "その他"),
                ("weight", .vnum (.fin 0)), ("reps", .vnum (.fin 5))]]))
      "u" true).2
    _ rfl _ (by decide)

/-- `normalizeExercise` always lands in the canonical list. -/
theorem normalizeExercise_contains (v : JsValue) :
    EXERCISES.contains (normalizeExercise v) = true := by
  rcases v with s | n | b | _ | _ | xs | fs <;> simp only [normalizeExercise] <;>
    try decide
  cases h : EXERCISES.contains s
  · simp only [Bool.false_eq_true, if_false]; decide
  · simpa using h

/-- **C1 counterexample** The shared validation guard `isLog` accepts a
candidate whose date is empty, whose weight is negative and whose reps
is NaN — the claimed rejections do not happen. -/
theorem isLog_accepts_invalid_candidate :
    isLog (.vobj [("id", .vstr "x"), ("date", .vstr ""),
        ("exercise", .vstr "ベンチプレス"), ("weight", .vnum (.fin (-5))),
        ("reps", .vnum .nan)]) = true ∧
      getProp (.vobj [("id", .vstr "x"), ("date", .vstr ""),
        ("exercise", .vstr "ベンチプレス"), ("weight", .vnum (.fin (-5))),
        ("reps", .vnum .nan)]) "date" = .vstr "" ∧
      jsNumber (getProp (.vobj [("id", .vstr "x"), ("date", .vstr ""),
        ("exercise", .vstr "ベンチプレス"), ("weight", .vnum (.fin (-5))),
        ("reps", .vnum .nan)]) "weight") = .fin (-5) ∧
      jsNumber (getProp (.vobj [("id", .vstr "x"), ("date", .vstr ""),
        ("exercise", .vstr "ベンチプレス"), ("weight", .vnum (.fin (-5))),
        ("reps", .vnum .nan)]) "reps") = .nan :=
  ⟨by decide, rfl, rfl, rfl⟩

/-- **C1 amended** The guard checks types and exercise membership only,
so every candidate produced by the JSON-import mapping passes it (the
JSON path filters nothing out), while the CSV path separately enforces a
non-empty date and strictly positive weight and reps. -/
theorem validation_json_vs_csv :
    (∀ (freshId : String) (l : JsValue),
        isLog (importElemV freshId l) = true) ∧
      ∀ (rnd : ℕ → String) (rows : List CsvRow) (lg : Log),
        lg ∈ csvRowsToLogs rnd rows →
          lg.date ≠ "" ∧ 0 < lg.weight ∧ 0 < lg.reps := by
  constructor
  · intro freshId l
    have hex := normalizeExercise_contains (getProp l "exercise")
    have hid : getProp (importElemV freshId l) "id" =
        (match getProp l "id" with
         | JsValue.vstr s => JsValue.vstr s
         | _ => JsValue.vstr freshId) := rfl
    have hidS : isStrV (getProp (importElemV freshId l) "id") = true := by
      rw [hid]; rcases getProp l "id" <;> rfl
    have hexq : getProp (importElemV freshId l) "exercise" =
        .vstr (normalizeExercise (getProp l "exercise")) := rfl
    have hexS : exMember (getProp (importElemV freshId l) "exercise") = true := by
      rw [hexq]; simpa [exMember] using hex
    simp only [isLog, Bool.and_eq_true]
    exact ⟨⟨⟨⟨⟨rfl, hidS⟩, rfl⟩, rfl⟩, rfl⟩, hexS⟩
  · intro rnd rows lg hmem
    unfold csvRowsToLogs at hmem
    obtain ⟨p, _, hp⟩ := List.mem_filterMap.mp hmem
    unfold csvRowToLog at hp
    simp only at hp
    split at hp
    · split at hp
      · simp at hp
      · next hcond =>
        obtain rfl := Option.some.inj hp
        simp only [Bool.or_eq_true, decide_eq_true_eq] at hcond
        push_neg at hcond
        exact ⟨hcond.1.1, hcond.1.2, hcond.2⟩
    · simp at hp

/-- Witness for C1's amended statement, at a `null` JSON element and a
concrete CSV row. -/
theorem validation_json_vs_csv_witness :
    isLog (importElemV "f" .vnull) = true ∧
      ("2024-02-01" : String) ≠ "" ∧ (0 : ℚ) < 100 ∧ (0 : ℚ) < 3 :=
  ⟨validation_json_vs_csv.1 "f" .vnull,
   validation_json_vs_csv.2 (fun _ => "r")
     [{ date := "2024-02-01", exercise := "スクワット", weight := "100",
        reps := "3", note := "good, form" }]
     { id := "2024-02-01-スクワット-r", date := "2024-02-01",
       exercise := "スクワット", weight := 100, reps := 3,
       note := some "good, form" } (by decide)⟩

/-! ### Association-map lemmas (for `mergeLogs`, `dailyData`, `bestFold`) -/

theorem find?_append {α : Type} (p : α → Bool) (l₁ l₂ : List α) :
    List.find? p (l₁ ++ l₂) = (List.find? p l₁).or (List.find? p l₂) := by
  induction l₁ with
  | nil => simp
  | cons x l₁ ih =>
    by_cases hx : p x = true
    · rw [List.cons_append, List.find?_cons_of_pos _ hx,
        List.find?_cons_of_pos _ hx]
      rfl
    · rw [List.cons_append, List.find?_cons_of_neg _ (by simpa using hx),
        List.find?_cons_of_neg _ (by simpa using hx), ih]

theorem find?_update {α : Type} (m : List (String × α)) (k k' : String)
    (v : α) :
    List.find? (fun p => p.1 = k')
        (m.map (fun p => if p.1 = k then (k, v) else p)) =
      (List.find? (fun p => p.1 = k') m).map
        (fun p => if p.1 = k then (k, v) else p) := by
  induction m with
  | nil => rfl
  | cons p m ih =>
    rw [List.map_cons]
    by_cases hq : p.1 = k'
    · have h1 : ((if p.1 = k then (k, v) else p).1 = k') := by
        rcases eq_or_ne p.1 k with hp | hp
        · simp only [hp, if_pos rfl]; exact hp ▸ hq
        · simp only [if_neg hp]; exact hq
      rw [List.find?_cons_of_pos _ (by simpa using h1),
        List.find?_cons_of_pos _ (by simpa using hq)]
      simp
    · have h1 : ¬((if p.1 = k then (k, v) else p).1 = k') := by
        rcases eq_or_ne p.1 k with hp | hp
        · simp only [hp, if_pos rfl]; exact fun h => hq (hp.trans h)
        · simp only [if_neg hp]; exact hq
      rw [List.find?_cons_of_neg _ (by simpa using h1),
        List.find?_cons_of_neg _ (by simpa using hq), ih]

theorem mapSet_keys {α : Type} (m : List (String × α)) (k : String) (v : α) :
    (mapSet m k v).map Prod.fst =
      if m.any (fun p => p.1 = k) = true then m.map Prod.fst
      else m.map Prod.fst ++ [k] := by
  unfold mapSet
  by_cases hany : m.any (fun p => p.1 = k) = true
  · rw [if_pos hany, if_pos hany, List.map_map]
    refine List.map_congr_left (fun p _ => ?_)
    rcases eq_or_ne p.1 k with hp | hp <;> simp [Function.comp, hp]
  · rw [if_neg hany, if_neg hany]; simp

theorem mapFind_mapSet_self {α : Type} (m : List (String × α)) (k : String)
    (v : α) : mapFind (mapSet m k v) k = some v := by
  unfold mapSet mapFind
  by_cases hany : m.any (fun p => p.1 = k) = true
  · rw [if_pos hany, find?_update]
    obtain ⟨p, hmem, hp⟩ := List.any_eq_true.mp hany
    simp only [decide_eq_true_eq] at hp
    rcases hfind : List.find? (fun p => decide (p.1 = k)) m with _ | q
    · rw [List.find?_eq_none] at hfind
      exact absurd (by simpa using hp) (hfind p hmem)
    · have hq := List.find?_some hfind
      simp only [decide_eq_true_eq] at hq
      rw [hfind]
      simp [hq]
  · rw [if_neg hany, find?_append]
    have hnone : List.find? (fun p => decide (p.1 = k)) m = none :=
      List.find?_eq_none.mpr (fun p hp hcontra =>
        absurd (List.any_eq_true.mpr ⟨p, hp, hcontra⟩) hany)
    simp [hnone, List.find?]

theorem mapFind_mapSet_ne {α : Type} (m : List (String × α)) (k k' : String)
    (v : α) (hkk : k ≠ k') : mapFind (mapSet m k v) k' = mapFind m k' := by
  unfold mapSet mapFind
  by_cases hany : m.any (fun p => p.1 = k) = true
  · rw [if_pos hany, find?_update]
    rcases hfind : List.find? (fun p => decide (p.1 = k')) m with _ | q
    · rw [hfind]; rfl
    · have hq := List.find?_some hfind
      simp only [decide_eq_true_eq] at hq
      have hqk : ¬(q.1 = k) := fun h => hkk (h ▸ hq)
      rw [hfind]
      simp [hqk]
  · rw [if_neg hany, find?_append]
    have hone : List.find? (fun p => decide (p.1 = k')) [(k, v)] = none := by
      simp [List.find?, hkk]
    rw [hone, Option.or_none]

theorem mem_mapSet {α : Type} {m : List (String × α)} {k : String} {v : α}
    {p : String × α} (h : p ∈ mapSet m k v) : p ∈ m ∨ p = (k, v) := by
  unfold mapSet at h
  by_cases hany : m.any (fun q => q.1 = k) = true
  · rw [if_pos hany] at h
    obtain ⟨q, hq, hqp⟩ := List.mem_map.mp h
    rcases eq_or_ne q.1 k with hqk | hqk
    · right; rw [← hqp]; simp [hqk]
    · left; rw [← hqp]; simp [hqk]; exact hq
  · rw [if_neg hany] at h
    rcases List.mem_append.mp h with h | h
    · exact Or.inl h
    · exact Or.inr (by simpa using h)

/-! ### `mergeLogs` lemmas: last-write-wins keyed overwrite -/

theorem foldl_or_init {β : Type} (step : Option β → β → Option β)
    (hstep : ∀ a l, step a l = (step none l).or a) :
    ∀ (xs : List β) (a : Option β),
      xs.foldl step a = (xs.foldl step none).or a := by
  intro xs
  induction xs with
  | nil => intro a; simp
  | cons l xs ih =>
    intro a
    simp only [List.foldl_cons]
    rw [ih (step a l), ih (step none l), hstep a l, Option.or_assoc]

theorem lastValidWithId_cons (l : Log) (xs : List Log) (k : String) :
    lastValidWithId (l :: xs) k =
      (lastValidWithId xs k).or
        (if isLog (logToJs l) && l.id = k then some l else none) := by
  unfold lastValidWithId
  simp only [List.foldl_cons]
  exact foldl_or_init _ (fun a lg => by by_cases h : isLog (logToJs lg) && lg.id = k <;> simp [h]) xs _

theorem lastWithId_cons (l : Log) (xs : List Log) (k : String) :
    lastWithId (l :: xs) k =
      (lastWithId xs k).or (if l.id = k then some l else none) := by
  unfold lastWithId
  simp only [List.foldl_cons]
  exact foldl_or_init _ (fun a lg => by by_cases h : lg.id = k <;> simp [h]) xs _

theorem lastValidWithId_eq_lastWithId (xs : List Log) (k : String)
    (h : ∀ l ∈ xs, isLog (logToJs l) = true) :
    lastValidWithId xs k = lastWithId xs k := by
  induction xs with
  | nil => rfl
  | cons l xs ih =>
    rw [lastValidWithId_cons, lastWithId_cons,
      ih (fun m hm => h m (List.mem_cons_of_mem _ hm)),
      h l (List.mem_cons_self _ _)]
    simp

theorem lastValidWithId_id {xs : List Log} {k : String} {l : Log}
    (h : lastValidWithId xs k = some l) :
    l.id = k ∧ isLog (logToJs l) = true := by
  induction xs with
  | nil => simp [lastValidWithId] at h
  | cons x xs ih =>
    rw [lastValidWithId_cons] at h
    rcases hv : lastValidWithId xs k with _ | y
    · rw [hv] at h
      by_cases hc : isLog (logToJs x) && x.id = k
      · rw [if_pos hc] at h
        simp only [Option.none_or] at h
        obtain rfl := Option.some.inj h
        simp only [Bool.and_eq_true, decide_eq_true_eq] at hc
        exact ⟨hc.2, hc.1⟩
      · rw [if_neg hc] at h
        simp at h
    · rw [hv] at h
      simp only [Option.or] at h
      obtain rfl := Option.some.inj h
      exact ih hv

/-- The keyed pass of `mergeLogs` retains, for each identifier, exactly
the last valid entry carrying it. -/
theorem buildMap_find (xs : List Log) (k : String) :
    mapFind (buildMap xs) k = lastValidWithId xs k := by
  suffices h : ∀ (m : List (String × Log)),
      mapFind (xs.foldl
        (fun m l => if isLog (logToJs l) then mapSet m l.id l else m) m) k =
        (lastValidWithId xs k).or (mapFind m k) by
    have := h []
    rw [buildMap] at *
    simpa [mapFind, List.find?] using this
  induction xs with
  | nil => intro m; simp [lastValidWithId]
  | cons l xs ih =>
    intro m
    simp only [List.foldl_cons]
    rw [ih, lastValidWithId_cons, Option.or_assoc]
    congr 1
    by_cases hv : isLog (logToJs l)
    · by_cases hk : l.id = k
      · subst hk
        simp [hv, mapFind_mapSet_self]
      · simp [hv, hk, mapFind_mapSet_ne m l.id k l hk]
    · simp [hv]

theorem buildMap_key_eq_id (xs : List Log) :
    ∀ p ∈ buildMap xs, p.1 = p.2.id := by
  suffices h : ∀ (m : List (String × Log)), (∀ p ∈ m, p.1 = p.2.id) →
      ∀ p ∈ xs.foldl
        (fun m l => if isLog (logToJs l) then mapSet m l.id l else m) m,
        p.1 = p.2.id by
    exact h [] (by simp)
  induction xs with
  | nil => intro m hm; exact hm
  | cons l xs ih =>
    intro m hm
    simp only [List.foldl_cons]
    refine ih _ (fun p hp => ?_)
    by_cases hv : isLog (logToJs l)
    · rw [if_pos hv] at hp
      rcases mem_mapSet hp with h | h
      · exact hm p h
      · rw [h]
    · rw [if_neg hv] at hp
      exact hm p hp

theorem buildMap_keys_nodup (xs : List Log) :
    ((buildMap xs).map Prod.fst).Nodup := by
  suffices h : ∀ (m : List (String × Log)), (m.map Prod.fst).Nodup →
      ((xs.foldl
        (fun m l => if isLog (logToJs l) then mapSet m l.id l else m)
        m).map Prod.fst).Nodup by
    exact h [] (by simp)
  induction xs with
  | nil => intro m hm; exact hm
  | cons l xs ih =>
    intro m hm
    simp only [List.foldl_cons]
    refine ih _ ?_
    by_cases hv : isLog (logToJs l)
    · rw [if_pos hv, mapSet_keys]
      by_cases hany : m.any (fun p => p.1 = l.id) = true
      · rw [if_pos hany]; exact hm
      · rw [if_neg hany]
        have hnotin : l.id ∉ m.map Prod.fst := by
          intro hmem
          obtain ⟨p, hp, hfst⟩ := List.mem_map.mp hmem
          exact hany (List.any_eq_true.mpr ⟨p, hp, by simp [hfst]⟩)
        simp [List.nodup_append, hm, hnotin]
    · rw [if_neg hv]; exact hm

theorem mapFind_of_mem_nodup {α : Type} (m : List (String × α))
    (hnd : (m.map Prod.fst).Nodup) {p : String × α} (hp : p ∈ m) :
    mapFind m p.1 = some p.2 := by
  induction m with
  | nil => simp at hp
  | cons q m ih =>
    rcases List.mem_cons.mp hp with rfl | hp'
    · simp [mapFind, List.find?]
    · have hq : ¬(q.1 = p.1) := by
        intro h
        have : q.1 ∈ m.map Prod.fst := h ▸ List.mem_map.mpr ⟨p, hp', (h ▸ rfl)⟩
        exact (List.nodup_cons.mp (by simpa using hnd)).1 this
      have hnd' : (m.map Prod.fst).Nodup := (List.nodup_cons.mp (by simpa using hnd)).2
      simpa [mapFind, List.find?, hq] using ih hnd' hp'

theorem mapFind_mem {α : Type} {m : List (String × α)} {k : String} {v : α}
    (h : mapFind m k = some v) : (k, v) ∈ m := by
  unfold mapFind at h
  rcases hfind : List.find? (fun p => decide (p.1 = k)) m with _ | p
  · rw [hfind] at h; simp at h
  · rw [hfind] at h
    simp only [Option.map_some'] at h
    have hpk := List.find?_some hfind
    simp only [decide_eq_true_eq] at hpk
    have hpm := List.mem_of_find?_eq_some hfind
    obtain rfl := Option.some.inj h
    rw [← hpk]
    exact hpm

/-- Membership in the merge result is exactly "being the last valid
entry with one's identifier". -/
theorem mem_mergeLogs_iff (prev incoming : List Log) (lg : Log) :
    lg ∈ mergeLogs prev incoming ↔
      lastValidWithId (prev ++ incoming) lg.id = some lg := by
  unfold mergeLogs
  rw [(List.perm_insertionSort dateGe _).mem_iff]
  constructor
  · intro hmem
    obtain ⟨p, hp, hsnd⟩ := List.mem_map.mp hmem
    have hkey := buildMap_key_eq_id _ p hp
    have hfind := mapFind_of_mem_nodup _
      (buildMap_keys_nodup (prev ++ incoming)) hp
    rw [buildMap_find] at hfind
    rw [← hsnd, ← hkey]
    exact hfind
  · intro hlast
    have := (buildMap_find (prev ++ incoming) lg.id).symm ▸ hlast
    have hmem : (lg.id, lg) ∈ buildMap (prev ++ incoming) := mapFind_mem this
    exact List.mem_map.mpr ⟨(lg.id, lg), hmem, rfl⟩

/-- **C3** `mergeLogs` keys entries by identifier with the incoming
entry replacing any existing entry sharing its id (last-write-wins), and
the result is sorted by date in descending string order. -/
theorem mergeLogs_lww_and_sorted (prev incoming : List Log) (lg : Log)
    (hvalid : ∀ l ∈ prev ++ incoming, l.exercise ∈ EXERCISES) :
    (lg ∈ mergeLogs prev incoming ↔
        lastWithId (prev ++ incoming) lg.id = some lg) ∧
      List.Sorted dateGe (mergeLogs prev incoming) := by
  constructor
  · rw [mem_mergeLogs_iff,
      lastValidWithId_eq_lastWithId _ _ (fun l hl => ?_)]
    have hex := hvalid l hl
    rcases l with ⟨i, d, e, w, r, note⟩
    rcases note with _ | s <;>
      simp [isLog, logToJs, getProp, List.find?, jsTruthy, isStrV, isNumV,
        exMember] <;> simpa using hex
  · exact List.sorted_insertionSort dateGe _

/-- Witness for C3: an incoming entry replaces the existing entry with
the same identifier, and the result is date-descending. -/
theorem mergeLogs_lww_and_sorted_witness :
    (({ id := "1", date := "2024-01-05", exercise := "スクワット",
        weight := 90, reps := 5, note := none } : Log) ∈
        mergeLogs
          [{ id := "1", date := "2024-01-01", exercise := "ベンチプレス",
             weight := 80, reps := 5, note := none }]
          [{ id := "1", date := "2024-01-05", exercise := "スクワット",
             weight := 90, reps := 5, note := none },
           { id := "2", date := "2024-01-02", exercise := "その他",
             weight := 10, reps := 1, note := none }] ↔
      lastWithId
          ([{ id := "1", date := "2024-01-01", exercise := "ベンチプレス",
              weight := 80, reps := 5, note := none }] ++
            [{ id := "1", date := "2024-01-05", exercise := "スクワット",
               weight := 90, reps := 5, note := none },
             { id := "2", date := "2024-01-02", exercise := "その他",
               weight := 10, reps := 1, note := none }]) "1" =
        some { id := "1", date := "2024-01-05", exercise := "スクワット",
               weight := 90, reps := 5, note := none }) ∧
      List.Sorted dateGe
        (mergeLogs
          [{ id := "1", date := "2024-01-01", exercise := "ベンチプレス",
             weight := 80, reps := 5, note := none }]
          [{ id := "1", date := "2024-01-05", exercise := "スクワット",
             weight := 90, reps := 5, note := none },
           { id := "2", date := "2024-01-02", exercise := "その他",
             weight := 10, reps := 1, note := none }]) :=
  mergeLogs_lww_and_sorted _ _ _ (by decide)

/-- **C6** After every merge, identifiers in the result are pairwise
distinct. -/
theorem mergeLogs_ids_nodup (prev incoming : List Log) :
    ((mergeLogs prev incoming).map Log.id).Nodup := by
  unfold mergeLogs
  refine ((List.perm_insertionSort dateGe _).map Log.id).symm.nodup ?_
  have hkeys := buildMap_keys_nodup (prev ++ incoming)
  have : ((buildMap (prev ++ incoming)).map (fun p => p.2)).map Log.id =
      (buildMap (prev ++ incoming)).map Prod.fst := by
    rw [List.map_map]
    exact List.map_congr_left
      (fun p hp => (buildMap_key_eq_id _ p hp).symm)
  rw [this]
  exact hkeys


/-! ### Personal-record lemmas -/

theorem mapFind_const_map (l : List String) (ex : String) (c : ℚ) :
    mapFind (l.map (fun e => (e, c))) ex =
      if ex ∈ l then some c else none := by
  induction l with
  | nil => simp [mapFind, List.find?]
  | cons e l ih =>
    by_cases he : e = ex
    · simp [mapFind, List.find?, he]
    · unfold mapFind at *
      rw [List.map_cons, List.find?_cons_of_neg _ (by simpa using he)]
      have hmem : (ex ∈ e :: l) ↔ (ex ∈ l) := by
        constructor
        · intro h
          rcases List.mem_cons.mp h with h | h
          · exact absurd h.symm he
          · exact h
        · exact List.mem_cons_of_mem _
      rw [if_congr hmem rfl rfl]
      exact ih

theorem bestStep_of_find {res : List (String × ℚ)} {l : Log} {q : ℚ}
    (hm : mapFind res l.exercise = some q) :
    bestStep res l =
      if q < l.weight then mapSet res l.exercise l.weight else res := by
  unfold bestStep
  rw [hm]

theorem bestStep_of_none {res : List (String × ℚ)} {l : Log}
    (hm : mapFind res l.exercise = none) : bestStep res l = res := by
  unfold bestStep
  rw [hm]

theorem bestWeightOf_cons (l : Log) (xs : List Log) (ex : String) :
    bestWeightOf (l :: xs) ex =
      if l.exercise = ex then max l.weight (bestWeightOf xs ex)
      else bestWeightOf xs ex := by
  by_cases h : l.exercise = ex <;> simp [bestWeightOf, h]

theorem bestWeightOf_nonneg (xs : List Log) (ex : String) :
    0 ≤ bestWeightOf xs ex := by
  induction xs with
  | nil => simp [bestWeightOf]
  | cons l xs ih =>
    rw [bestWeightOf_cons]
    by_cases h : l.exercise = ex
    · rw [if_pos h]
      exact le_trans ih (le_max_right _ _)
    · rw [if_neg h]; exact ih

theorem bestFold_go (xs : List Log) :
    ∀ (m : List (String × ℚ)) (ex : String) (a : ℚ),
      mapFind m ex = some a → 0 ≤ a →
      mapFind (xs.foldl bestStep m) ex =
        some (max a (bestWeightOf xs ex)) := by
  induction xs with
  | nil =>
    intro m ex a hfind ha
    simpa [bestWeightOf, max_eq_left ha] using hfind
  | cons l xs ih =>
    intro m ex a hfind ha
    simp only [List.foldl_cons]
    rw [bestWeightOf_cons]
    by_cases hex : l.exercise = ex
    · have hm : mapFind m l.exercise = some a := by rw [hex]; exact hfind
      rw [bestStep_of_find hm]
      by_cases hlt : a < l.weight
      · rw [if_pos hlt, if_pos hex]
        have h1 : mapFind (mapSet m l.exercise l.weight) ex = some l.weight := by
          rw [hex]
          exact mapFind_mapSet_self m ex l.weight
        rw [ih _ ex l.weight h1 (le_of_lt (lt_of_le_of_lt ha hlt))]
        rw [← max_assoc, max_eq_right (le_of_lt hlt)]
      · rw [if_neg hlt, if_pos hex]
        rw [ih _ ex a hfind ha, ← max_assoc,
          max_eq_left (le_of_not_lt hlt)]
    · rw [if_neg hex]
      have hne : l.exercise ≠ ex := hex
      rcases hm : mapFind m l.exercise with _ | q
      · rw [bestStep_of_none hm]
        exact ih _ ex a hfind ha
      · rw [bestStep_of_find hm]
        by_cases hlt : q < l.weight
        · rw [if_pos hlt]
          exact ih _ ex a
            (by rw [mapFind_mapSet_ne m l.exercise ex l.weight hne]
                exact hfind) ha
        · rw [if_neg hlt]
          exact ih _ ex a hfind ha

/-- The source record fold computes the per-exercise maximum weight. -/
theorem bestFold_lookup (xs : List Log) (ex : String)
    (hex : ex ∈ EXERCISES) :
    mapFind (bestFold xs) ex = some (bestWeightOf xs ex) := by
  unfold bestFold
  rw [bestFold_go xs _ ex 0 (by rw [mapFind_const_map]; simp [hex]) le_rfl,
    max_eq_right (bestWeightOf_nonneg xs ex)]

/-- **C4** An exercise is flagged as a PR exactly when its best weight on
the selected date is positive and strictly exceeds its best weight over
all other dates; ties are never flagged. -/
theorem prSet_iff (logs : List Log) (dateStr : String) (ex : String)
    (hex : ex ∈ EXERCISES) :
    ex ∈ prSet logs dateStr ↔
      0 < bestWeightOf (logsOn logs dateStr) ex ∧
        bestWeightOf (logsOff logs dateStr) ex <
          bestWeightOf (logsOn logs dateStr) ex := by
  unfold prSet
  rw [List.mem_filter]
  rw [bestFold_lookup _ ex hex, bestFold_lookup _ ex hex]
  simp [recGt, hex]

/-- Witness for C4: the spec scenario (80 kg on day one, 85 kg on day
two makes day two a bench-press PR). -/
theorem prSet_iff_witness :
    ("ベンチプレス" ∈ prSet
        [{ id := "1", date := "2024-01-01", exercise := "ベンチプレス",
           weight := 80, reps := 5, note := none },
         { id := "2", date := "2024-01-02", exercise := "ベンチプレス",
           weight := 85, reps := 5, note := none }] "2024-01-02" ↔
      0 < bestWeightOf (logsOn
          [{ id := "1", date := "2024-01-01", exercise := "ベンチプレス",
             weight := 80, reps := 5, note := none },
           { id := "2", date := "2024-01-02", exercise := "ベンチプレス",
             weight := 85, reps := 5, note := none }] "2024-01-02")
          "ベンチプレス" ∧
        bestWeightOf (logsOff
          [{ id := "1", date := "2024-01-01", exercise := "ベンチプレス",
             weight := 80, reps := 5, note := none },
           { id := "2", date := "2024-01-02", exercise := "ベンチプレス",
             weight := 85, reps := 5, note := none }] "2024-01-02")
          "ベンチプレス" <
          bestWeightOf (logsOn
          [{ id := "1", date := "2024-01-01", exercise := "ベンチプレス",
             weight := 80, reps := 5, note := none },
           { id := "2", date := "2024-01-02", exercise := "ベンチプレス",
             weight := 85, reps := 5, note := none }] "2024-01-02")
          "ベンチプレス") :=
  prSet_iff _ _ _ (by decide)


/-! ### Rolling 30-day volume lemmas -/

theorem mapSet_fresh {α : Type} (m : List (String × α)) (k : String)
    (v : α) (h : ¬(m.any (fun p => p.1 = k) = true)) :
    mapSet m k v = m ++ [(k, v)] := by
  unfold mapSet
  rw [if_neg h]

theorem foldl_mapSet_fresh :
    ∀ (ds : List String) (m : List (String × ℚ)), ds.Nodup →
      (∀ d ∈ ds, ¬(m.any (fun p => p.1 = d) = true)) →
      ds.foldl (fun m d => mapSet m d 0) m = m ++ ds.map (fun d => (d, 0)) := by
  intro ds
  induction ds with
  | nil => intro m _ _; simp
  | cons d ds ih =>
    intro m hnd hfresh
    simp only [List.foldl_cons]
    rw [mapSet_fresh m d 0 (hfresh d (List.mem_cons_self _ _))]
    rw [ih _ (List.nodup_cons.mp hnd).2 ?_]
    · simp
    · intro e he hany
      rcases List.any_eq_true.mp hany with ⟨p, hp, hpe⟩
      simp only [decide_eq_true_eq] at hpe
      rcases List.mem_append.mp hp with hp | hp
      · exact hfresh e (List.mem_cons_of_mem _ he)
          (List.any_eq_true.mpr ⟨p, hp, by simp [hpe]⟩)
      · have hpd : p = (d, 0) := by simpa using hp
        rw [hpd] at hpe
        have hde : d = e := by simpa using hpe
        exact (List.nodup_cons.mp hnd).1 (hde ▸ he)

theorem volMapInit_eq (today : ℤ) (h : (windowDates today).Nodup) :
    volMapInit today = (windowDates today).map (fun d => (d, (0 : ℚ))) := by
  unfold volMapInit
  rw [foldl_mapSet_fresh _ [] h (by simp)]
  simp

theorem mapFind_eq_none_iff {α : Type} (m : List (String × α)) (k : String) :
    mapFind m k = none ↔ ¬(m.any (fun p => p.1 = k) = true) := by
  unfold mapFind
  rw [Option.map_eq_none', List.find?_eq_none, List.any_eq_true]
  constructor
  · rintro h ⟨p, hp, hpk⟩
    exact h p hp hpk
  · intro h p hp hpk
    exact h ⟨p, hp, hpk⟩

theorem dailyStep_keys (m : List (String × ℚ)) (l : Log) :
    (dailyStep m l).map Prod.fst = m.map Prod.fst := by
  unfold dailyStep
  by_cases hany : m.any (fun p => p.1 = l.date) = true
  · rw [if_pos hany, mapSet_keys, if_pos hany]
  · rw [if_neg hany]

theorem volOf_cons (l : Log) (logs : List Log) (k : String) :
    volOf (l :: logs) k =
      if l.date = k then l.weight * l.reps + volOf logs k
      else volOf logs k := by
  by_cases h : l.date = k <;> simp [volOf, h]

theorem dailyStep_find (m : List (String × ℚ)) (l : Log) (k : String) :
    mapFind (dailyStep m l) k =
      if l.date = k then (mapFind m k).map (fun v => v + l.weight * l.reps)
      else mapFind m k := by
  unfold dailyStep
  by_cases hk : l.date = k
  · rw [if_pos hk]
    subst hk
    rcases hf : mapFind m l.date with _ | v
    · rw [if_neg ((mapFind_eq_none_iff m l.date).mp hf)]
      rw [hf]
      rfl
    · have hany : m.any (fun p => p.1 = l.date) = true := by
        by_contra h
        rw [(mapFind_eq_none_iff m l.date).mpr h] at hf
        exact Option.noConfusion hf
      rw [if_pos hany]
      simpa using mapFind_mapSet_self m l.date _
  · rw [if_neg hk]
    by_cases hany : m.any (fun p => p.1 = l.date) = true
    · rw [if_pos hany]
      exact mapFind_mapSet_ne m l.date k _ hk
    · rw [if_neg hany]

theorem dailyFold_find (logs : List Log) :
    ∀ (m : List (String × ℚ)) (k : String),
      mapFind (logs.foldl dailyStep m) k =
        (mapFind m k).map (fun v => v + volOf logs k) := by
  induction logs with
  | nil =>
    intro m k
    simp only [List.foldl_nil]
    rcases hf : mapFind m k with _ | v <;> simp [volOf]
  | cons l logs ih =>
    intro m k
    simp only [List.foldl_cons]
    rw [ih, dailyStep_find, volOf_cons]
    by_cases hk : l.date = k
    · rw [if_pos hk, if_pos hk]
      rcases mapFind m k with _ | v
      · rfl
      · simp [add_assoc]
    · rw [if_neg hk, if_neg hk]

theorem dailyFold_keys (logs : List Log) :
    ∀ (m : List (String × ℚ)),
      (logs.foldl dailyStep m).map Prod.fst = m.map Prod.fst := by
  induction logs with
  | nil => intro m; rfl
  | cons l logs ih =>
    intro m
    simp only [List.foldl_cons]
    rw [ih, dailyStep_keys]

/-- **C7** For every collection, the 30-day series has exactly the 30
window dates as keys (hence length 30), and each window date carries the
sum of `weight*reps` over exactly the logs of that date — entries outside
the window contribute to no key, and dates without entries stay 0. -/
theorem dailyData_spec (today : ℤ) (logs : List Log)
    (hnd : (windowDates today).Nodup) :
    (dailyData today logs).map Prod.fst = windowDates today ∧
      (dailyData today logs).length = 30 ∧
      ∀ p ∈ dailyData today logs, p.2 = volOf logs p.1 := by
  have hkeys : (dailyData today logs).map Prod.fst = windowDates today := by
    unfold dailyData
    rw [dailyFold_keys, volMapInit_eq today hnd, List.map_map]
    have hcomp : (Prod.fst ∘ fun d : String => (d, (0 : ℚ))) = id := rfl
    rw [hcomp, List.map_id]
  refine ⟨hkeys, ?_, ?_⟩
  · have hlen := congrArg List.length hkeys
    rw [List.length_map] at hlen
    rw [hlen]
    unfold windowDates
    rw [List.length_map]
    exact List.length_range 30
  · intro p hp
    have hnd' : ((dailyData today logs).map Prod.fst).Nodup := by
      rw [hkeys]; exact hnd
    have hfind := mapFind_of_mem_nodup _ hnd' hp
    unfold dailyData at hfind
    rw [dailyFold_find, volMapInit_eq today hnd, mapFind_const_map] at hfind
    have hpmem : p.1 ∈ windowDates today := by
      have : p.1 ∈ (dailyData today logs).map Prod.fst :=
        List.mem_map.mpr ⟨p, hp, rfl⟩
      rwa [hkeys] at this
    rw [if_pos hpmem] at hfind
    simp only [Option.map_some'] at hfind
    have := Option.some.inj hfind
    rw [← this, zero_add]

/-- Witness for C7 at a concrete day number (2024-09-08) and a two-log
history with one log outside the window. -/
theorem dailyData_spec_witness :
    (dailyData 19974
        [{ id := "1", date := "2024-09-08", exercise := "その他",
           weight := 50, reps := 2, note := none },
         { id := "2", date := "2020-01-01", exercise := "その他",
           weight := 70, reps := 3, note := none }]).map Prod.fst =
        windowDates 19974 ∧
      (dailyData 19974
        [{ id := "1", date := "2024-09-08", exercise := "その他",
           weight := 50, reps := 2, note := none },
         { id := "2", date := "2020-01-01", exercise := "その他",
           weight := 70, reps := 3, note := none }]).length = 30 ∧
      ∀ p ∈ dailyData 19974
        [{ id := "1", date := "2024-09-08", exercise := "その他",
           weight := 50, reps := 2, note := none },
         { id := "2", date := "2020-01-01", exercise := "その他",
           weight := 70, reps := 3, note := none }],
        p.2 = volOf
          [{ id := "1", date := "2024-09-08", exercise := "その他",
             weight := 50, reps := 2, note := none },
           { id := "2", date := "2020-01-01", exercise := "その他",
             weight := 70, reps := 3, note := none }] p.1 :=
  dailyData_spec 19974 _ (by decide)


/-! ### Decimal rendering and parsing lemmas -/

theorem charDigit_digitChar {d : ℕ} (h : d < 10) :
    charDigit (digitChar d) = d := by
  interval_cases d <;> decide

theorem isDig_digitChar {d : ℕ} (h : d < 10) :
    isDig (digitChar d) = true := by
  interval_cases d <;> decide

theorem natChars_digits :
    ∀ fuel n, ∀ c ∈ natChars fuel n, isDig c = true := by
  intro fuel
  induction fuel with
  | zero => intro n c hc; simp [natChars] at hc
  | succ f ih =>
    intro n c hc
    match n with
    | 0 => simp [natChars] at hc
    | n + 1 =>
      simp only [natChars] at hc
      rcases List.mem_append.mp hc with h1 | h2
      · exact ih _ c h1
      · have hc2 : c = digitChar ((n + 1) % 10) := by simpa using h2
        rw [hc2]
        exact isDig_digitChar (Nat.mod_lt _ (by norm_num))

theorem natStrChars_digits (n : ℕ) :
    ∀ c ∈ natStrChars n, isDig c = true := by
  unfold natStrChars
  by_cases h : n = 0
  · rw [if_pos h]; intro c hc; simp at hc; rw [hc]; decide
  · rw [if_neg h]; exact natChars_digits n n

theorem beVal_append (a : ℕ) (xs : List Char) (c : Char) :
    beVal a (xs ++ [c]) = 10 * beVal a xs + charDigit c := by
  simp [beVal, List.foldl_append]

theorem beVal_natChars :
    ∀ fuel n a, n ≤ fuel →
      beVal a (natChars fuel n) =
        a * 10 ^ (natChars fuel n).length + n := by
  intro fuel
  induction fuel with
  | zero =>
    intro n a hn
    interval_cases n
    simp [natChars, beVal]
  | succ f ih =>
    intro n a hn
    match n with
    | 0 => simp [natChars, beVal]
    | n + 1 =>
      have hdiv : (n + 1) / 10 < n + 1 :=
        Nat.div_lt_self (by omega) (by norm_num)
      simp only [natChars]
      rw [beVal_append, ih _ a (by omega),
        charDigit_digitChar (Nat.mod_lt _ (by norm_num)),
        List.length_append, List.length_singleton, pow_succ, ← mul_assoc]
      have hmod := Nat.div_add_mod (n + 1) 10
      generalize a * 10 ^ (natChars f ((n + 1) / 10)).length = Q
      omega

theorem digitsVal_go (cs : List Char) :
    ∀ a : ℕ, (∀ c ∈ cs, isDig c = true) →
      cs.foldl digitsValStep (some a) = some (beVal a cs) := by
  induction cs with
  | nil => intro a _; simp [beVal]
  | cons c cs ih =>
    intro a h
    have hc := h c (List.mem_cons_self _ _)
    have hstep : digitsValStep (some a) c = some (10 * a + charDigit c) := by
      show (if isDig c = true then some (10 * a + charDigit c) else none) = _
      rw [if_pos hc]
    simp only [List.foldl_cons, hstep]
    rw [ih _ (fun d hd => h d (List.mem_cons_of_mem _ hd))]
    simp [beVal]

theorem digitsVal_natChars (n : ℕ) : digitsVal (natStrChars n) = some n := by
  unfold digitsVal
  rw [digitsVal_go _ 0 (natStrChars_digits n)]
  unfold natStrChars
  by_cases h : n = 0
  · rw [if_pos h, h]; decide
  · rw [if_neg h, beVal_natChars n n 0 le_rfl]
    simp

theorem beVal_replicate_zero (j : ℕ) :
    beVal 0 (List.replicate j '0') = 0 := by
  induction j with
  | zero => rfl
  | succ j ih =>
    rw [List.replicate_succ]
    show List.foldl _ (10 * 0 + charDigit '0') (List.replicate j '0') = 0
    simpa [beVal] using ih

theorem digitsVal_padded (j v : ℕ) :
    digitsVal (List.replicate j '0' ++ natChars v v) = some v := by
  unfold digitsVal
  rw [digitsVal_go _ 0 ?_]
  · rw [beVal, List.foldl_append]
    have h0 : List.foldl (fun x c => 10 * x + charDigit c) 0
        (List.replicate j '0') = 0 := beVal_replicate_zero j
    rw [h0]
    have := beVal_natChars v v 0 le_rfl
    simpa [beVal] using this
  · intro c hc
    rcases List.mem_append.mp hc with h | h
    · have : c = '0' := List.eq_of_mem_replicate h
      rw [this]; decide
    · exact natChars_digits v v c h

theorem natChars_length_le :
    ∀ fuel n k, n < 10 ^ k → (natChars fuel n).length ≤ k := by
  intro fuel
  induction fuel with
  | zero => intro n k _; simp [natChars]
  | succ f ih =>
    intro n k hk
    match n with
    | 0 => simp [natChars]
    | n + 1 =>
      match k with
      | 0 => simp at hk
      | k + 1 =>
        simp only [natChars, List.length_append, List.length_singleton]
        have hdivlt : (n + 1) / 10 < 10 ^ k := by
          rw [Nat.div_lt_iff_lt_mul (by norm_num)]
          calc n + 1 < 10 ^ (k + 1) := hk
            _ = 10 ^ k * 10 := by rw [pow_succ]
        have := ih ((n + 1) / 10) k hdivlt
        omega

theorem dropWhile_eq_self_of_all {p : Char → Bool} (l : List Char)
    (h : ∀ c ∈ l, p c = false) : l.dropWhile p = l := by
  cases l with
  | nil => rfl
  | cons c l => simp [List.dropWhile_cons, h c (List.mem_cons_self _ _)]

theorem trimChars_eq_self (cs : List Char)
    (h : ∀ c ∈ cs, isWs c = false) : trimChars cs = cs := by
  unfold trimChars
  rw [dropWhile_eq_self_of_all cs h,
    dropWhile_eq_self_of_all _ (fun c hc => h c (List.mem_reverse.mp hc)),
    List.reverse_reverse]

theorem takeWhile_append_all {p : Char → Bool} :
    ∀ (a b : List Char), (∀ c ∈ a, p c = true) →
      (∀ hd, b.head? = some hd → p hd = false) →
      (a ++ b).takeWhile p = a ∧ (a ++ b).dropWhile p = b := by
  intro a
  induction a with
  | nil =>
    intro b _ hb
    cases b with
    | nil => exact ⟨rfl, rfl⟩
    | cons hd t =>
      constructor
      · simp [List.takeWhile_cons, hb hd rfl]
      · simp [List.dropWhile_cons, hb hd rfl]
  | cons c a ih =>
    intro b h hb
    have hc := h c (List.mem_cons_self _ _)
    obtain ⟨h1, h2⟩ := ih b (fun d hd => h d (List.mem_cons_of_mem _ hd)) hb
    constructor
    · simp [List.takeWhile_cons, hc, h1]
    · simp [List.dropWhile_cons, hc, h2]


theorem takeWhile_eq_self_of_all {p : Char → Bool} (l : List Char)
    (h : ∀ c ∈ l, p c = true) : l.takeWhile p = l := by
  induction l with
  | nil => rfl
  | cons c l ih =>
    simp [List.takeWhile_cons, h c (List.mem_cons_self _ _),
      ih (fun d hd => h d (List.mem_cons_of_mem _ hd))]

theorem dropWhile_eq_nil_of_all {p : Char → Bool} (l : List Char)
    (h : ∀ c ∈ l, p c = true) : l.dropWhile p = [] := by
  induction l with
  | nil => rfl
  | cons c l ih =>
    simp [List.dropWhile_cons, h c (List.mem_cons_self _ _),
      ih (fun d hd => h d (List.mem_cons_of_mem _ hd))]

theorem natChars_ne_nil :
    ∀ (fuel n : ℕ), 1 ≤ n → n ≤ fuel → natChars fuel n ≠ [] := by
  intro fuel n h1 h2
  match fuel, n with
  | 0, n => omega
  | f + 1, 0 => omega
  | f + 1, n + 1 => simp [natChars]

theorem natStrChars_ne_nil (n : ℕ) : natStrChars n ≠ [] := by
  unfold natStrChars
  by_cases h : n = 0
  · rw [if_pos h]; simp
  · rw [if_neg h]; exact natChars_ne_nil n n (by omega) le_rfl

theorem natStrChars_cons (x : ℕ) :
    ∃ c cs, natStrChars x = c :: cs ∧ isDig c = true := by
  obtain ⟨c, cs0, hx⟩ := List.exists_cons_of_ne_nil (natStrChars_ne_nil x)
  exact ⟨c, cs0, hx, natStrChars_digits x c (hx ▸ List.mem_cons_self _ _)⟩

theorem cons_head_append (l suf : List Char)
    (h : ∃ c cs, l = c :: cs ∧ isDig c = true) :
    ∃ c cs, l ++ suf = c :: cs ∧ isDig c = true := by
  obtain ⟨c, cs, hx, hd⟩ := h
  exact ⟨c, cs ++ suf, by rw [hx]; rfl, hd⟩

theorem ratCharsCore_cons (n d : ℕ) :
    ∃ c cs, ratCharsCore n d = c :: cs ∧ isDig c = true := by
  unfold ratCharsCore
  split
  · exact cons_head_append _ _ (cons_head_append _ _ (natStrChars_cons n))
  · exact natStrChars_cons n
  · exact cons_head_append _ _ (natStrChars_cons _)

theorem parseUnsigned_digits (l : List Char) (hne : l ≠ [])
    (hdig : ∀ c ∈ l, isDig c = true) (v : ℕ) (hval : digitsVal l = some v) :
    parseUnsigned l = some (v : ℚ) := by
  unfold parseUnsigned
  rw [dropWhile_eq_nil_of_all l hdig, takeWhile_eq_self_of_all l hdig,
    if_pos rfl, if_neg (by simpa using hne), hval]
  rfl

theorem parseUnsigned_dotted (ic fr : List Char) (hicne : ic ≠ [])
    (hic : ∀ c ∈ ic, isDig c = true)
    (i f : ℕ) (hi : digitsVal ic = some i) (hf : digitsVal fr = some f) :
    parseUnsigned (ic ++ '.' :: fr) =
      some ((i : ℚ) + (f : ℚ) / 10 ^ fr.length) := by
  unfold parseUnsigned
  obtain ⟨ht, hd⟩ := takeWhile_append_all ic ('.' :: fr) hic
    (by intro hd hh
        have : hd = '.' := by simpa using hh.symm
        rw [this]; decide)
  rw [ht, hd, if_neg (by simp), if_pos (by rfl)]
  rw [if_neg (by simp [List.isEmpty_iff]; exact fun h => (hicne h).elim)]
  show (match digitsVal ic, digitsVal (('.' :: fr).tail) with
    | some i, some f => some ((i : ℚ) + (f : ℚ) / 10 ^ (('.' :: fr).tail).length)
    | _, _ => none) = _
  rw [show ('.' :: fr).tail = fr from rfl, hi, hf]

theorem ip_frac_eq (n d K : ℕ) (hd : d ≠ 0) (hdvd : d ∣ 10 ^ K) :
    ((n * (10 ^ K / d) / 10 ^ K : ℕ) : ℚ) +
      ((n * (10 ^ K / d) % 10 ^ K : ℕ) : ℚ) / (10 : ℚ) ^ K =
      (n : ℚ) / (d : ℚ) := by
  set c := 10 ^ K / d with hc
  have hcd : c * d = 10 ^ K := Nat.div_mul_cancel hdvd
  have h10 : (0 : ℕ) < 10 ^ K := pow_pos (by norm_num) K
  have hc0 : c ≠ 0 := by
    intro h
    rw [h, zero_mul] at hcd
    omega
  have hsum : n * c / 10 ^ K * 10 ^ K + n * c % 10 ^ K = n * c :=
    Nat.div_add_mod' _ _
  have h10Q : ((10 : ℚ) ^ K) ≠ 0 := by positivity
  have hdQ : ((d : ℚ)) ≠ 0 := Nat.cast_ne_zero.mpr hd
  have hcQ : ((c : ℚ)) ≠ 0 := Nat.cast_ne_zero.mpr hc0
  have hcast := congrArg (fun x : ℕ => (x : ℚ)) hsum
  push_cast at hcast
  have hcdQ : ((c : ℚ)) * (d : ℚ) = (10 : ℚ) ^ K := by
    exact_mod_cast congrArg (fun x : ℕ => (x : ℚ)) hcd
  field_simp
  nlinarith [hcast, hcdQ]


theorem isDig_ne_sign {c : Char} (h : isDig c = true) :
    c ≠ '-' ∧ c ≠ '+' := by
  constructor <;> rintro rfl <;> exact absurd h (by decide)

theorem isDig_numChar {c : Char} (h : isDig c = true) : numChar c = true := by
  simp [numChar, h]

theorem numChar_not_ws {c : Char} (h : numChar c = true) : isWs c = false := by
  simp only [numChar, Bool.or_eq_true, decide_eq_true_eq] at h
  rcases h with ((h | h) | h) | h
  · cases hws : isWs c
    · rfl
    · exfalso
      simp only [isWs, Bool.or_eq_true, decide_eq_true_eq] at hws
      rcases hws with ((h1 | h1) | h1) | h1 <;> rw [h1] at h <;>
        exact absurd h (by decide)
  · rw [h]; decide
  · rw [h]; decide
  · rw [h]; decide

theorem numChar_clean {c : Char} (h : numChar c = true) :
    c ≠ ',' ∧ c ≠ '"' ∧ c ≠ '\n' ∧ c ≠ '\r' := by
  simp only [numChar, Bool.or_eq_true, decide_eq_true_eq] at h
  rcases h with ((h | h) | h) | h
  · refine ⟨?_, ?_, ?_, ?_⟩ <;> rintro rfl <;> exact absurd h (by decide)
  · rw [h]; decide
  · rw [h]; decide
  · rw [h]; decide

theorem ratCharsCore_numChar (n d : ℕ) :
    ∀ c ∈ ratCharsCore n d, numChar c = true := by
  unfold ratCharsCore
  split <;> intro c hc
  · rcases List.mem_append.mp hc with h | h
    · rcases List.mem_append.mp h with h | h
      · exact isDig_numChar (natStrChars_digits n c h)
      · have hcs : c = '/' := by simpa using h
        rw [hcs]; decide
    · exact isDig_numChar (natStrChars_digits d c h)
  · exact isDig_numChar (natStrChars_digits n c hc)
  · rcases List.mem_append.mp hc with h | h
    · exact isDig_numChar (natStrChars_digits _ c h)
    · rcases List.mem_cons.mp h with h | h
      · rw [h]; decide
      · rcases List.mem_append.mp h with h | h
        · have hcs : c = '0' := List.eq_of_mem_replicate h
          rw [hcs]; decide
        · exact isDig_numChar (natChars_digits _ _ c h)

theorem ratChars_numChar (q : ℚ) : ∀ c ∈ ratChars q, numChar c = true := by
  unfold ratChars
  intro c hc
  rcases List.mem_append.mp hc with h | h
  · by_cases hneg : q < 0
    · rw [if_pos hneg] at h
      have hcs : c = '-' := by simpa using h
      rw [hcs]; decide
    · rw [if_neg hneg] at h
      simp at h
  · exact ratCharsCore_numChar _ _ c h

theorem ratChars_ne_nil (q : ℚ) : ratChars q ≠ [] := by
  unfold ratChars
  obtain ⟨c, cs, hx, _⟩ := ratCharsCore_cons q.num.natAbs q.den
  rw [hx]
  simp

theorem natAbs_div_den_nonneg (q : ℚ) (h : 0 ≤ q) :
    ((q.num.natAbs : ℚ)) / ((q.den : ℚ)) = q := by
  rw [Int.cast_natAbs,
    abs_of_nonneg (by exact_mod_cast Rat.num_nonneg.mpr h)]
  exact Rat.num_div_den q

theorem natAbs_div_den_neg (q : ℚ) (h : q < 0) :
    ((q.num.natAbs : ℚ)) / ((q.den : ℚ)) = -q := by
  have hnum : q.num < 0 := Rat.num_neg.mpr h
  rw [Int.cast_natAbs, abs_of_neg (by exact_mod_cast hnum)]
  push_cast
  rw [neg_div, Rat.num_div_den]

theorem parseUnsigned_ratCharsCore (n d : ℕ) (hd : d ≠ 0)
    (hk : decExp d ≠ none) :
    parseUnsigned (ratCharsCore n d) = some ((n : ℚ) / (d : ℚ)) := by
  unfold ratCharsCore
  split
  · next heq => exact absurd heq hk
  · next heq =>
    have hdvd : d ∣ 10 ^ 0 := by
      have := List.find?_some heq
      simpa using this
    have hd1 : d = 1 := Nat.dvd_one.mp (by simpa using hdvd)
    rw [parseUnsigned_digits _ (natStrChars_ne_nil n) (natStrChars_digits n)
      n (digitsVal_natChars n), hd1]
    norm_num
  · next k heq =>
    have hdvd : d ∣ 10 ^ (k + 1) := by
      have := List.find?_some heq
      simpa using this
    have hfvlt : n * (10 ^ (k + 1) / d) % 10 ^ (k + 1) < 10 ^ (k + 1) :=
      Nat.mod_lt _ (pow_pos (by norm_num) _)
    have hlen := natChars_length_le
      (n * (10 ^ (k + 1) / d) % 10 ^ (k + 1))
      (n * (10 ^ (k + 1) / d) % 10 ^ (k + 1)) (k + 1) hfvlt
    show parseUnsigned
        (natStrChars (n * (10 ^ (k + 1) / d) / 10 ^ (k + 1)) ++ '.' ::
          (List.replicate
            ((k + 1) -
              (natChars (n * (10 ^ (k + 1) / d) % 10 ^ (k + 1))
                (n * (10 ^ (k + 1) / d) % 10 ^ (k + 1))).length) '0' ++
            natChars (n * (10 ^ (k + 1) / d) % 10 ^ (k + 1))
              (n * (10 ^ (k + 1) / d) % 10 ^ (k + 1)))) =
      some ((n : ℚ) / (d : ℚ))
    rw [parseUnsigned_dotted _ _ (natStrChars_ne_nil _)
      (natStrChars_digits _)
      (n * (10 ^ (k + 1) / d) / 10 ^ (k + 1))
      (n * (10 ^ (k + 1) / d) % 10 ^ (k + 1))
      (digitsVal_natChars _) (digitsVal_padded _ _)]
    have hfrlen : (List.replicate
        ((k + 1) -
          (natChars (n * (10 ^ (k + 1) / d) % 10 ^ (k + 1))
            (n * (10 ^ (k + 1) / d) % 10 ^ (k + 1))).length) '0' ++
        natChars (n * (10 ^ (k + 1) / d) % 10 ^ (k + 1))
          (n * (10 ^ (k + 1) / d) % 10 ^ (k + 1))).length = k + 1 := by
      rw [List.length_append, List.length_replicate]
      omega
    rw [hfrlen, ip_frac_eq n d (k + 1) hd hdvd]

/-- JS `Number(String(q)) = q` for every finite number with a
terminating decimal expansion (every JS float). -/
theorem parseNum_ratChars (q : ℚ) (h : ratOK q) :
    parseNumChars (ratChars q) = .fin q := by
  have hden : q.den ≠ 0 := q.den_nz
  have hk : decExp q.den ≠ none := h
  have htrim : trimChars (ratChars q) = ratChars q :=
    trimChars_eq_self _ (fun c hc => numChar_not_ws (ratChars_numChar q c hc))
  unfold parseNumChars
  simp only [htrim]
  obtain ⟨c0, cs0, hcore, hdig0⟩ := ratCharsCore_cons q.num.natAbs q.den
  by_cases hneg : q < 0
  · have hrc : ratChars q = '-' :: ratCharsCore q.num.natAbs q.den := by
      unfold ratChars
      rw [if_pos hneg]
      rfl
    rw [hrc, if_neg (by simp), if_pos (by rfl)]
    show (parseUnsigned (ratCharsCore q.num.natAbs q.den)).elim JNum.nan
      (fun x => JNum.fin (-x)) = JNum.fin q
    rw [parseUnsigned_ratCharsCore _ _ hden hk]
    show JNum.fin (-((q.num.natAbs : ℚ) / (q.den : ℚ))) = JNum.fin q
    rw [natAbs_div_den_neg q hneg, neg_neg]
  · have hrc : ratChars q = ratCharsCore q.num.natAbs q.den := by
      unfold ratChars
      rw [if_neg hneg]
      rfl
    have hsign := isDig_ne_sign hdig0
    rw [hrc, hcore, if_neg (by simp),
      if_neg (by simpa using hsign.1), if_neg (by simpa using hsign.2),
      ← hcore, parseUnsigned_ratCharsCore _ _ hden hk]
    show JNum.fin ((q.num.natAbs : ℚ) / (q.den : ℚ)) = JNum.fin q
    rw [natAbs_div_den_nonneg q (le_of_not_lt hneg)]

/-- String-level version of the decimal round trip. -/
theorem parseNumber_ratChars (q : ℚ) (h : ratOK q) :
    parseNumber ⟨ratChars q⟩ = .fin q := parseNum_ratChars q h


/-! ### CSV splitter and scanner lemmas -/

theorem scanLine_nil (cur : List Char) (q : Bool) (row : List (List Char)) :
    scanLine [] cur q row = row ++ [cur] := by
  cases q <;> rfl

theorem scanLine_cons_true (c : Char) (rest cur : List Char)
    (row : List (List Char)) :
    scanLine (c :: rest) cur true row =
      if c = '"' then
        if rest.head? = some '"' then scanLine rest.tail (cur ++ ['"']) true row
        else scanLine rest cur false row
      else scanLine rest (cur ++ [c]) true row := by
  by_cases hc : c = '"'
  · subst hc
    rw [if_pos rfl]
    rcases rest with _ | ⟨d, rest2⟩
    · simp [scanLine]
    · by_cases hd : d = '"'
      · subst hd
        simp [scanLine]
      · simp [scanLine, hd]
  · rw [if_neg hc]
    simp [scanLine, hc]

theorem scanLine_cons_false (c : Char) (rest cur : List Char)
    (row : List (List Char)) :
    scanLine (c :: rest) cur false row =
      if c = ',' then scanLine rest [] false (row ++ [cur])
      else if c = '"' then scanLine rest cur true row
      else scanLine rest (cur ++ [c]) false row := by
  rw [scanLine]


theorem splitOnChar_ne_nil (sep : Char) : ∀ cs, splitOnChar sep cs ≠ [] := by
  intro cs
  induction cs with
  | nil => simp [splitOnChar]
  | cons c rest ih =>
    by_cases hc : c = sep
    · simp [splitOnChar, hc]
    · rcases h : splitOnChar sep rest with _ | ⟨r, rs⟩ <;>
        simp [splitOnChar, hc, h]

theorem splitOnChar_cons_ne (sep c : Char) (rest : List Char)
    (hc : ¬(c = sep)) (r : List Char) (rs : List (List Char))
    (h : splitOnChar sep rest = r :: rs) :
    splitOnChar sep (c :: rest) = (c :: r) :: rs := by
  simp only [splitOnChar, if_neg hc, h]

theorem splitOnChar_no_sep (sep : Char) :
    ∀ cs, (∀ c ∈ cs, c ≠ sep) → splitOnChar sep cs = [cs] := by
  intro cs
  induction cs with
  | nil => intro _; rfl
  | cons c rest ih =>
    intro h
    rw [splitOnChar_cons_ne sep c rest (h c (List.mem_cons_self _ _)) rest []
      (ih (fun d hd => h d (List.mem_cons_of_mem _ hd)))]

theorem splitOnChar_append (sep : Char) :
    ∀ (a b : List Char), (∀ c ∈ a, c ≠ sep) →
      splitOnChar sep (a ++ sep :: b) = a :: splitOnChar sep b := by
  intro a
  induction a with
  | nil =>
    intro b _
    simp [splitOnChar]
  | cons c a ih =>
    intro b h
    have h1 := ih b (fun d hd => h d (List.mem_cons_of_mem _ hd))
    rw [List.cons_append, splitOnChar_cons_ne sep c (a ++ sep :: b)
      (h c (List.mem_cons_self _ _)) a (splitOnChar sep b) h1]

theorem intercalate_pair {α : Type} (sep : α) (l l2 : List α)
    (ls2 : List (List α)) :
    List.intercalate [sep] (l :: l2 :: ls2) =
      l ++ sep :: List.intercalate [sep] (l2 :: ls2) := by
  simp [List.intercalate, List.intersperse]

theorem intercalate_one {α : Type} (sep : α) (l : List α) :
    List.intercalate [sep] [l] = l := by
  simp [List.intercalate]

theorem splitOnChar_intercalate (sep : Char) :
    ∀ (ls : List (List Char)), ls ≠ [] →
      (∀ l ∈ ls, ∀ c ∈ l, c ≠ sep) →
      splitOnChar sep (List.intercalate [sep] ls) = ls := by
  intro ls
  induction ls with
  | nil => intro h; exact absurd rfl h
  | cons l ls ih =>
    intro _ h
    cases ls with
    | nil =>
      rw [intercalate_one]
      exact splitOnChar_no_sep sep l (h l (List.mem_cons_self _ _))
    | cons l2 ls2 =>
      rw [intercalate_pair,
        splitOnChar_append sep l _ (h l (List.mem_cons_self _ _)),
        ih (by simp) (fun m hm => h m (List.mem_cons_of_mem _ hm))]

theorem normNl_eq_self : ∀ (cs : List Char), (∀ c ∈ cs, c ≠ '\r') →
    normNl cs = cs := by
  intro cs
  induction cs with
  | nil => intro _; simp [normNl]
  | cons c rest ih =>
    intro h
    have hc := h c (List.mem_cons_self _ _)
    have ih2 := ih (fun d hd => h d (List.mem_cons_of_mem _ hd))
    rcases rest with _ | ⟨d, rest2⟩
    · simp [normNl, hc]
    · simp [normNl, hc, ih2]

theorem escQuotes_eq_self : ∀ (s : List Char), (∀ c ∈ s, c ≠ '"') →
    escQuotes s = s := by
  intro s
  induction s with
  | nil => intro _; rfl
  | cons c rest ih =>
    intro h
    rw [escQuotes, if_neg (h c (List.mem_cons_self _ _)),
      ih (fun d hd => h d (List.mem_cons_of_mem _ hd))]

theorem mem_escQuotes : ∀ (s : List Char) (c : Char), c ∈ escQuotes s →
    c ∈ s ∨ c = '"' := by
  intro s
  induction s with
  | nil => intro c hc; simp [escQuotes] at hc
  | cons a rest ih =>
    intro c hc
    rw [escQuotes] at hc
    by_cases ha : a = '"'
    · rw [if_pos ha] at hc
      rcases List.mem_cons.mp hc with h | hc2
      · exact Or.inr h
      · rcases List.mem_cons.mp hc2 with h | h
        · exact Or.inr h
        · rcases ih c h with h | h
          · exact Or.inl (List.mem_cons_of_mem _ h)
          · exact Or.inr h
    · rw [if_neg ha] at hc
      rcases List.mem_cons.mp hc with h | h
      · exact Or.inl (h ▸ List.mem_cons_self _ _)
      · rcases ih c h with h | h
        · exact Or.inl (List.mem_cons_of_mem _ h)
        · exact Or.inr h

theorem quote_mem_escQuotes : ∀ (s : List Char), '"' ∈ s →
    '"' ∈ escQuotes s := by
  intro s
  induction s with
  | nil => intro h; simp at h
  | cons a rest ih =>
    intro h
    rw [escQuotes]
    by_cases ha : a = '"'
    · rw [if_pos ha]
      exact List.mem_cons_self _ _
    · rw [if_neg ha]
      rcases List.mem_cons.mp h with h | h
      · exact absurd h.symm ha
      · exact List.mem_cons_of_mem _ (ih h)

theorem scanLine_unquoted :
    ∀ (f rest cur : List Char) (row : List (List Char)),
      (∀ c ∈ f, c ≠ ',' ∧ c ≠ '"') →
      scanLine (f ++ rest) cur false row =
        scanLine rest (cur ++ f) false row := by
  intro f
  induction f with
  | nil => intro rest cur row _; simp
  | cons c f ih =>
    intro rest cur row h
    obtain ⟨hc1, hc2⟩ := h c (List.mem_cons_self _ _)
    rw [List.cons_append, scanLine, if_neg hc1, if_neg hc2,
      ih rest (cur ++ [c]) row (fun d hd => h d (List.mem_cons_of_mem _ hd))]
    simp

theorem scanLine_quoted :
    ∀ (s rest cur : List Char) (row : List (List Char)),
      rest.head? ≠ some '"' →
      scanLine (escQuotes s ++ '"' :: rest) cur true row =
        scanLine rest (cur ++ s) false row := by
  intro s
  induction s with
  | nil =>
    intro rest cur row hrest
    show scanLine ('"' :: rest) cur true row = _
    rw [scanLine_cons_true, if_pos rfl, if_neg hrest]
    simp
  | cons c s ih =>
    intro rest cur row hrest
    rw [escQuotes]
    by_cases hc : c = '"'
    · rw [if_pos hc, List.cons_append, List.cons_append, scanLine_cons_true,
        if_pos rfl, if_pos (by rfl)]
      show scanLine (escQuotes s ++ '"' :: rest) (cur ++ ['"']) true row = _
      rw [ih rest (cur ++ ['"']) row hrest, hc]
      simp
    · rw [if_neg hc, List.cons_append, scanLine_cons_true, if_neg hc,
        ih rest (cur ++ [c]) row hrest]
      simp

theorem scanLine_csvField_clean (f rest cur : List Char)
    (row : List (List Char))
    (hclean : ∀ c ∈ f, c ≠ ',' ∧ c ≠ '"' ∧ c ≠ '\n') :
    scanLine (csvField f ++ rest) cur false row =
      scanLine rest (cur ++ f) false row := by
  have hq : needsQuote f = false := by
    rw [needsQuote, List.any_eq_false]
    intro c hc
    obtain ⟨h1, h2, h3⟩ := hclean c hc
    simp [h1, h2, h3]
  unfold csvField
  rw [hq]
  show scanLine (f ++ rest) cur false row = _
  exact scanLine_unquoted f rest cur row
    (fun c hc => ⟨(hclean c hc).1, (hclean c hc).2.1⟩)

theorem scanLine_csvField_note (s rest cur : List Char)
    (row : List (List Char)) (hrest : rest.head? ≠ some '"') :
    scanLine (csvField (escQuotes s) ++ rest) cur false row =
      scanLine rest (cur ++ s) false row := by
  unfold csvField
  by_cases hq : needsQuote (escQuotes s) = true
  · rw [hq, if_pos rfl, List.cons_append, List.cons_append,
      scanLine_cons_false, if_neg (by decide), if_pos rfl,
      List.append_assoc]
    show scanLine (escQuotes s ++ '"' :: rest) cur true row = _
    exact scanLine_quoted s rest cur row hrest
  · rw [Bool.not_eq_true] at hq
    rw [hq, if_neg (by simp)]
    have hnoq : ∀ c ∈ s, c ≠ '"' := by
      intro c hc hcq
      have hmem : '"' ∈ escQuotes s := quote_mem_escQuotes s (hcq ▸ hc)
      rw [needsQuote, List.any_eq_false] at hq
      have := hq '"' hmem
      simp at this
    have hself : escQuotes s = s := escQuotes_eq_self s hnoq
    rw [hself]
    refine scanLine_unquoted s rest cur row (fun c hc => ⟨?_, hnoq c hc⟩)
    intro hcc
    rw [needsQuote, List.any_eq_false] at hq
    have := hq c (by rw [hself]; exact hc)
    rw [hcc] at this
    simp at this

theorem scanLine_row :
    ∀ (ps : List (List Char × List Char)) (row : List (List Char)),
      ps ≠ [] →
      (∀ p ∈ ps, ∀ (rest cur : List Char) (row2 : List (List Char)),
        rest.head? ≠ some '"' →
        scanLine (p.1 ++ rest) cur false row2 =
          scanLine rest (cur ++ p.2) false row2) →
      scanLine (List.intercalate [','] (ps.map Prod.fst)) [] false row =
        row ++ ps.map Prod.snd := by
  intro ps
  induction ps with
  | nil => intro row h; exact absurd rfl h
  | cons p ps ih =>
    intro row _ h
    cases ps with
    | nil =>
      simp only [List.map_cons, List.map_nil]
      rw [intercalate_one]
      have hp := h p (List.mem_cons_self _ _) [] [] row (by simp)
      rw [← List.append_nil p.1, hp]
      simp [scanLine]
    | cons p2 ps2 =>
      rw [List.map_cons, List.map_cons, intercalate_pair,
        h p (List.mem_cons_self _ _) _ [] row (by simp),
        scanLine_cons_false, if_pos rfl]
      have hih := ih (row ++ [[] ++ p.2]) (by simp)
        (fun q hq => h q (List.mem_cons_of_mem _ hq))
      rw [List.map_cons] at hih
      rw [hih]
      simp

/-! ### CSV round-trip assembly -/

theorem jsOr_str_empty (s : String) :
    jsToStr (jsOr (.vstr s) (.vstr "")) = s := by
  by_cases h : s = ""
  · simp [jsOr, jsTruthy, jsToStr, h]
  · simp [jsOr, jsTruthy, jsToStr, h]

theorem strTake10_of_le (s : String) (h : s.length ≤ 10) :
    strTake10 s = s := by
  unfold strTake10
  rw [List.take_of_length_le h]

theorem normalizeExercise_canonical (ex : String) (h : ex ∈ EXERCISES) :
    normalizeExercise (.vstr ex) = ex := by
  unfold normalizeExercise
  show (if EXERCISES.contains ex = true then ex else "その他") = ex
  rw [if_pos (by simpa using h)]

theorem exercises_clean (ex : String) (h : ex ∈ EXERCISES) :
    cleanChars ex.data := by
  fin_cases h <;> decide

theorem csvRowToLog_rowOfLog (l : Log) (suffix : String) (hv : validLog l)
    (hw : ratOK l.weight) (hr : ratOK l.reps) :
    csvRowToLog suffix (rowOfLog l) =
      some { l with id := l.date ++ "-" ++ l.exercise ++ "-" ++ suffix } := by
  obtain ⟨⟨hd1, hd2, hd3⟩, hex, hwpos, hrpos, hnote⟩ := hv
  have hw' : parseNumber (⟨ratChars l.weight⟩ : String) = .fin l.weight :=
    parseNumber_ratChars _ hw
  have hr' : parseNumber (⟨ratChars l.reps⟩ : String) = .fin l.reps :=
    parseNumber_ratChars _ hr
  have hdate : strTake10 (jsToStr (jsOr (.vstr l.date) (.vstr ""))) =
      l.date := by
    rw [jsOr_str_empty, strTake10_of_le _ hd2]
  have hexn : normalizeExercise (.vstr l.exercise) = l.exercise :=
    normalizeExercise_canonical _ hex
  have hnoteval :
      (if (rowOfLog l).note ≠ "" && jsTrim (rowOfLog l).note ≠ ""
        then some (rowOfLog l).note else none) = l.note := by
    rcases hn : l.note with _ | s
    · simp [rowOfLog, hn]
    · have hs : jsTrim s ≠ "" := hnote s hn
      have hs0 : s ≠ "" := by
        intro h0
        rw [h0] at hs
        exact hs rfl
      simp [rowOfLog, hn, hs, hs0]
  simp only [csvRowToLog, rowOfLog] at hnoteval ⊢
  rw [hw', hr']
  simp only [hdate, hexn]
  show (if l.date = "" || l.weight ≤ 0 || l.reps ≤ 0 then (none : Option Log)
    else some ({ id := l.date ++ "-" ++ l.exercise ++ "-" ++ suffix,
                 date := l.date, exercise := l.exercise, weight := l.weight,
                 reps := l.reps,
                 note := if (l.note.getD "") ≠ "" && jsTrim (l.note.getD "") ≠ ""
                         then some (l.note.getD "") else none } : Log)) = _
  rw [if_neg (by
    simp only [Bool.or_eq_true, decide_eq_true_eq]
    push_neg
    exact ⟨⟨hd1, hwpos⟩, hrpos⟩)]
  rw [hnoteval]

theorem scanLine_csvLineOf (l : Log) (hdate : cleanChars l.date.data)
    (hex : cleanChars l.exercise.data) :
    scanLine (csvLineOf l) [] false [] =
      [l.date.data, l.exercise.data, ratChars l.weight, ratChars l.reps,
        (l.note.getD "").data] := by
  have hrow := scanLine_row
    [(csvField l.date.data, l.date.data),
     (csvField l.exercise.data, l.exercise.data),
     (csvField (ratChars l.weight), ratChars l.weight),
     (csvField (ratChars l.reps), ratChars l.reps),
     (csvField (escQuotes (l.note.getD "").data), (l.note.getD "").data)]
    [] (by simp) ?_
  · unfold csvLineOf csvRowChars
    simpa using hrow
  · intro p hp rest cur row2 hrest
    simp only [List.mem_cons] at hp
    rcases hp with rfl | rfl | rfl | rfl | rfl | h
    · exact scanLine_csvField_clean _ _ _ _ (fun c hc =>
        ⟨(hdate c hc).1, (hdate c hc).2.1, (hdate c hc).2.2.1⟩)
    · exact scanLine_csvField_clean _ _ _ _ (fun c hc =>
        ⟨(hex c hc).1, (hex c hc).2.1, (hex c hc).2.2.1⟩)
    · refine scanLine_csvField_clean _ _ _ _ (fun c hc => ?_)
      have hcl := numChar_clean (ratChars_numChar l.weight c hc)
      exact ⟨hcl.1, hcl.2.1, hcl.2.2.1⟩
    · refine scanLine_csvField_clean _ _ _ _ (fun c hc => ?_)
      have hcl := numChar_clean (ratChars_numChar l.reps c hc)
      exact ⟨hcl.1, hcl.2.1, hcl.2.2.1⟩
    · exact scanLine_csvField_note _ _ _ _ hrest
    · simp at h

theorem csvRowOf_csvLineOf (l : Log) (hdate : cleanChars l.date.data)
    (hex : cleanChars l.exercise.data) :
    csvRowOf ["date", "exercise", "weight", "reps", "note"] (csvLineOf l) =
      rowOfLog l := by
  unfold csvRowOf
  rw [scanLine_csvLineOf l hdate hex]
  rfl

theorem mem_csvField {c : Char} {f : List Char} (h : c ∈ csvField f) :
    c ∈ f ∨ c = '"' := by
  unfold csvField at h
  by_cases hq : needsQuote f = true
  · rw [if_pos hq] at h
    rcases List.mem_cons.mp h with rfl | h
    · exact Or.inr rfl
    · rcases List.mem_append.mp h with h | h
      · exact Or.inl h
      · exact Or.inr (by simpa using h)
  · rw [if_neg hq] at h
    exact Or.inl h

theorem mem_intercalate_sep (sep : Char) :
    ∀ (xs : List (List Char)) {c : Char}, c ∈ List.intercalate [sep] xs →
      (∃ x ∈ xs, c ∈ x) ∨ c = sep := by
  intro xs
  induction xs with
  | nil => intro c h; simp [List.intercalate] at h
  | cons x xs ih =>
    rcases xs with _ | ⟨y, ys⟩
    · intro c h
      rw [intercalate_one] at h
      exact Or.inl ⟨x, List.mem_cons_self _ _, h⟩
    · intro c h
      rw [intercalate_pair] at h
      rcases List.mem_append.mp h with h | h
      · exact Or.inl ⟨x, List.mem_cons_self _ _, h⟩
      · rcases List.mem_cons.mp h with rfl | h
        · exact Or.inr rfl
        · rcases ih h with ⟨z, hz, hcz⟩ | h
          · exact Or.inl ⟨z, List.mem_cons_of_mem _ hz, hcz⟩
          · exact Or.inr h

theorem csvLineOf_ne_nil (l : Log) : csvLineOf l ≠ [] := by
  unfold csvLineOf csvRowChars
  simp only [List.map_cons]
  rw [intercalate_pair]
  intro h
  have := (List.append_eq_nil.mp h).2
  simp at this

theorem csvLineOf_clean (l : Log) (hdate : cleanChars l.date.data)
    (hex : cleanChars l.exercise.data)
    (hnote : ∀ c ∈ (l.note.getD "").data, c ≠ '\n' ∧ c ≠ '\r') :
    ∀ c ∈ csvLineOf l, c ≠ '\n' ∧ c ≠ '\r' := by
  intro c hc
  unfold csvLineOf at hc
  rcases mem_intercalate_sep ',' _ hc with ⟨x, hx, hcx⟩ | rfl
  · obtain ⟨f, hf, rfl⟩ := List.mem_map.mp hx
    rcases mem_csvField hcx with hcf | rfl
    · unfold csvRowChars at hf
      simp only [List.mem_cons] at hf
      rcases hf with rfl | rfl | rfl | rfl | rfl | h
      · exact ⟨(hdate c hcf).2.2.1, (hdate c hcf).2.2.2⟩
      · exact ⟨(hex c hcf).2.2.1, (hex c hcf).2.2.2⟩
      · have hcl := numChar_clean (ratChars_numChar l.weight c hcf)
        exact ⟨hcl.2.2.1, hcl.2.2.2⟩
      · have hcl := numChar_clean (ratChars_numChar l.reps c hcf)
        exact ⟨hcl.2.2.1, hcl.2.2.2⟩
      · rcases mem_escQuotes _ c hcf with h | rfl
        · exact hnote c h
        · exact ⟨by decide, by decide⟩
      · simp at h
    · exact ⟨by decide, by decide⟩
  · exact ⟨by decide, by decide⟩

theorem csvLines_toCSV (logs : List Log)
    (hclean : ∀ l ∈ logs, ∀ c ∈ csvLineOf l, c ≠ '\n' ∧ c ≠ '\r') :
    csvLines (toCSV logs) = csvHeaderChars :: logs.map csvLineOf := by
  have hnr : ∀ c ∈ csvHeaderChars ++
      '\n' :: List.intercalate ['\n'] (logs.map csvLineOf), c ≠ '\r' := by
    intro c hc
    rcases List.mem_append.mp hc with h | h
    · exact (by decide : ∀ c ∈ csvHeaderChars, c ≠ '\r') c h
    · rcases List.mem_cons.mp h with rfl | h
      · decide
      · rcases mem_intercalate_sep '\n' _ h with ⟨x, hx, hcx⟩ | rfl
        · obtain ⟨l, hl, rfl⟩ := List.mem_map.mp hx
          exact (hclean l hl c hcx).2
        · decide
  show (splitNl (normNl (csvHeaderChars ++
    '\n' :: List.intercalate ['\n'] (logs.map csvLineOf)))).filter
      (fun l => l ≠ []) = _
  rw [normNl_eq_self _ hnr]
  unfold splitNl
  rw [splitOnChar_append '\n' _ _ (by decide)]
  rcases logs with _ | ⟨l0, ls⟩
  · decide
  · rw [List.map_cons, splitOnChar_intercalate '\n' _ (by simp) ?_]
    · rw [List.filter_eq_self.mpr ?_]
      intro a ha
      rcases List.mem_cons.mp ha with rfl | ha
      · decide
      · rcases List.mem_cons.mp ha with rfl | ha
        · simpa using csvLineOf_ne_nil l0
        · obtain ⟨l, hl, rfl⟩ := List.mem_map.mp ha
          simpa using csvLineOf_ne_nil l
    · intro x hx c hc
      rcases List.mem_cons.mp hx with rfl | hx
      · exact (hclean l0 (List.mem_cons_self _ _) c hc).1
      · obtain ⟨l, hl, rfl⟩ := List.mem_map.mp hx
        exact (hclean l (List.mem_cons_of_mem _ hl) c hc).1

theorem parseCSV_toCSV (logs : List Log)
    (h : ∀ l ∈ logs, validLog l ∧
      ∀ s, l.note = some s → ∀ c ∈ s.data, c ≠ '\n' ∧ c ≠ '\r') :
    parseCSV (toCSV logs) = some (logs.map rowOfLog) := by
  have hclean : ∀ l ∈ logs, ∀ c ∈ csvLineOf l, c ≠ '\n' ∧ c ≠ '\r' := by
    intro l hl
    obtain ⟨⟨⟨_, _, hd3⟩, hex, _⟩, hnote⟩ := h l hl
    refine csvLineOf_clean l hd3 (exercises_clean _ hex) ?_
    rcases hn : l.note with _ | s
    · intro c hc; simp at hc
    · exact hnote s hn
  unfold parseCSV
  rw [csvLines_toCSV logs hclean]
  show some ((logs.map csvLineOf).map (csvRowOf (csvHeaderFields csvHeaderChars)))
    = some (logs.map rowOfLog)
  have hhdr : csvHeaderFields csvHeaderChars =
      ["date", "exercise", "weight", "reps", "note"] := by decide
  rw [hhdr, List.map_map]
  refine congrArg some (List.map_congr_left fun l hl => ?_)
  obtain ⟨⟨⟨_, _, hd3⟩, hex, _⟩, _⟩ := h l hl
  show csvRowOf ["date", "exercise", "weight", "reps", "note"] (csvLineOf l)
    = rowOfLog l
  exact csvRowOf_csvLineOf l hd3 (exercises_clean _ hex)

theorem snd_mem_of_mem_enumFrom {α : Type} :
    ∀ (l : List α) (n : ℕ) (p : ℕ × α), p ∈ l.enumFrom n → p.2 ∈ l := by
  intro l
  induction l with
  | nil => intro n p h; simp at h
  | cons x xs ih =>
    intro n p h
    rw [List.enumFrom] at h
    rcases List.mem_cons.mp h with rfl | h
    · exact List.mem_cons_self _ _
    · exact List.mem_cons_of_mem _ (ih _ _ h)

theorem filterMap_all_some {α β : Type} (f : α → Option β) (g : α → β) :
    ∀ (l : List α), (∀ x ∈ l, f x = some (g x)) → l.filterMap f = l.map g := by
  intro l
  induction l with
  | nil => intro _; rfl
  | cons x xs ih =>
    intro h
    rw [List.filterMap_cons, h x (List.mem_cons_self _ _)]
    show g x :: xs.filterMap f = _
    rw [ih (fun y hy => h y (List.mem_cons_of_mem _ hy)), List.map_cons]

/-- **C2** — counterexample to the claim as stated.  The valid entry
`cexLog` carries note `"a\nb"`.  Running the pipeline
`csvRowsToLogs ∘ parseCSV ∘ toCSV` on `[cexLog]` yields one entry whose
note is `"a"`, not `"a\nb"`: `toCSV` quotes the newline inside the note
field, but `parseCSV` splits the text into lines *before* it parses
quotes, so the quoted newline is torn apart and the tail of the note is
lost.  Notes with commas or double quotes do survive (see
`csv_roundtrip`), newlines do not. -/
theorem csv_roundtrip_newline_failure :
    validLog cexLog ∧ cexLog.note = some "a\nb" ∧
      (csvRowsToLogs (fun _ => "r")
          ((parseCSV (toCSV [cexLog])).getD [])).map (fun l => l.note) =
        [some "a"] := by decide

/-- **C2** (amended): for every collection of valid entries whose notes
contain no newline and no carriage return — commas and double quotes are
allowed — `parseCSV (toCSV logs)` succeeds, returns exactly the encoded
rows, and `csvRowsToLogs` rebuilds every entry with `date`, `exercise`,
`weight`, `reps` and note content equal to the originals, differing only
in the freshly generated identifier. -/
theorem csv_roundtrip (logs : List Log) (rnd : ℕ → String)
    (h : ∀ l ∈ logs, validLog l ∧ ratOK l.weight ∧ ratOK l.reps ∧
      ∀ s, l.note = some s → ∀ c ∈ s.data, c ≠ '\n' ∧ c ≠ '\r') :
    parseCSV (toCSV logs) = some (logs.map rowOfLog) ∧
      csvRowsToLogs rnd (logs.map rowOfLog) =
        logs.enum.map (fun p =>
          { p.2 with id := p.2.date ++ "-" ++ p.2.exercise ++ "-" ++ rnd p.1 }) := by
  constructor
  · exact parseCSV_toCSV logs (fun l hl => ⟨(h l hl).1, (h l hl).2.2.2⟩)
  · unfold csvRowsToLogs
    rw [List.enum_map, List.filterMap_map]
    refine filterMap_all_some _ _ _ (fun p hp => ?_)
    obtain ⟨hv, hw, hr, -⟩ := h p.2 (snd_mem_of_mem_enumFrom _ _ _ hp)
    show csvRowToLog (rnd p.1) (rowOfLog p.2) = _
    exact csvRowToLog_rowOfLog p.2 (rnd p.1) hv hw hr

/-- Witness for `csv_roundtrip` at a three-entry collection exercising
the comma, double-quote and missing-note paths. -/
theorem csv_roundtrip_witness :
    (∀ l ∈ [rtLog1, rtLog2, rtLog3], validLog l ∧ ratOK l.weight ∧
      ratOK l.reps ∧
      ∀ s, l.note = some s → ∀ c ∈ s.data, c ≠ '\n' ∧ c ≠ '\r') ∧
    (parseCSV (toCSV [rtLog1, rtLog2, rtLog3]) =
        some ([rtLog1, rtLog2, rtLog3].map rowOfLog) ∧
      csvRowsToLogs (fun _ => "9") ([rtLog1, rtLog2, rtLog3].map rowOfLog) =
        [rtLog1, rtLog2, rtLog3].enum.map (fun p =>
          { p.2 with
            id := p.2.date ++ "-" ++ p.2.exercise ++ "-" ++ "9" })) :=
  ⟨by decide, csv_roundtrip [rtLog1, rtLog2, rtLog3] (fun _ => "9") (by decide)⟩

/-- **C10** — counterexample to the claim as stated: `parseCSV` is not
total.  On the empty input the line list is empty and the source throws
(`lines[0].split` with `lines[0]` undefined), modeled here as `none`. -/
theorem parseCSV_empty_input : parseCSV "" = none := rfl

/-- **C10** (amended): whenever the filtered line list is non-empty —
equivalently, the input has at least one line that is not blank —
`parseCSV` succeeds: it returns one row per non-blank data line (blank
lines are skipped by the `filter(Boolean)`), a header missing the `note`
column yields `""` notes throughout, and a data row shorter than a
header column index yields `""` for that field rather than failing. -/
theorem parseCSV_total (text : String) (h : List Char) (t : List (List Char))
    (hl : csvLines text = h :: t) :
    parseCSV text = some (t.map (csvRowOf (csvHeaderFields h))) ∧
      (∀ rows, parseCSV text = some rows →
        rows.length + 1 = (csvLines text).length) ∧
      (headerIdx (csvHeaderFields h) "note" = none →
        ∀ r ∈ t.map (csvRowOf (csvHeaderFields h)), r.note = "") ∧
      (∀ line i, headerIdx (csvHeaderFields h) "date" = some i →
        (scanLine line [] false []).length ≤ i →
        (csvRowOf (csvHeaderFields h) line).date = "") := by
  have h1 : parseCSV text = some (t.map (csvRowOf (csvHeaderFields h))) := by
    unfold parseCSV
    rw [hl]
  refine ⟨h1, ?_, ?_, ?_⟩
  · intro rows hr
    rw [h1] at hr
    obtain rfl := Option.some.inj hr
    rw [hl, List.length_map, List.length_cons]
  · intro hnone r hr
    obtain ⟨line, -, rfl⟩ := List.mem_map.mp hr
    show rowGet _ (headerIdx (csvHeaderFields h) "note") = ""
    rw [hnone]
    rfl
  · intro line i hi hlen
    show rowGet ((scanLine line [] false []).map (fun cs => (⟨cs⟩ : String)))
      (headerIdx (csvHeaderFields h) "date") = ""
    rw [hi]
    show ((scanLine line [] false []).map (fun cs => (⟨cs⟩ : String))).getD i "" = ""
    rw [List.getD_eq_default]
    rw [List.length_map]
    exact hlen

/-- Witness for `parseCSV_total`: a header without a `note` column, a
blank line that is skipped, and a one-field data row (`reps` missing). -/
theorem parseCSV_total_witness :
    csvLines "date,reps\n\n2024-01-01,5\nxx" =
      "date,reps".data :: ["2024-01-01,5".data, "xx".data] ∧
    (parseCSV "date,reps\n\n2024-01-01,5\nxx" =
        some (["2024-01-01,5".data, "xx".data].map
          (csvRowOf (csvHeaderFields "date,reps".data))) ∧
      (∀ rows, parseCSV "date,reps\n\n2024-01-01,5\nxx" = some rows →
        rows.length + 1 = (csvLines "date,reps\n\n2024-01-01,5\nxx").length) ∧
      (headerIdx (csvHeaderFields "date,reps".data) "note" = none →
        ∀ r ∈ ["2024-01-01,5".data, "xx".data].map
          (csvRowOf (csvHeaderFields "date,reps".data)), r.note = "") ∧
      (∀ line i, headerIdx (csvHeaderFields "date,reps".data) "date" = some i →
        (scanLine line [] false []).length ≤ i →
        (csvRowOf (csvHeaderFields "date,reps".data) line).date = "")) :=
  ⟨by decide, parseCSV_total "date,reps\n\n2024-01-01,5\nxx" "date,reps".data
    ["2024-01-01,5".data, "xx".data] (by decide)⟩

theorem importElemV_logToJs (fid : String) (l : Log) (hv : validLog l) :
    isLog (importElemV fid (logToJs l)) = true ∧
      jsValToLog (importElemV fid (logToJs l)) = some l := by
  obtain ⟨⟨hd1, hd2, hd3⟩, hex, hw, hr, hnote⟩ := hv
  have hdate : strTake10 (jsToStr (jsOr (.vstr l.date) (.vstr ""))) =
      l.date := by
    rw [jsOr_str_empty, strTake10_of_le _ hd2]
  have hexn : normalizeExercise (.vstr l.exercise) = l.exercise :=
    normalizeExercise_canonical _ hex
  have hcont : EXERCISES.contains l.exercise = true := by simpa using hex
  rcases hn : l.note with _ | s
  · have he : importElemV fid (logToJs l) =
        .vobj [("id", .vstr l.id),
               ("date", .vstr (strTake10 (jsToStr (jsOr (.vstr l.date)
                 (.vstr ""))))),
               ("exercise", .vstr (normalizeExercise (.vstr l.exercise))),
               ("weight", .vnum (.fin l.weight)),
               ("reps", .vnum (.fin l.reps)),
               ("note", .vundef)] := by
      simp only [logToJs, hn]
      rfl
    rw [he, hdate, hexn]
    constructor
    · show (true && true && true && true && true &&
        EXERCISES.contains l.exercise) = true
      rw [hcont]
      rfl
    · show some
        ({ id := l.id, date := l.date, exercise := l.exercise,
           weight := l.weight, reps := l.reps, note := none } : Log) = some l
      rw [← hn]
  · have hts : jsTrim s ≠ "" := hnote s hn
    have he : importElemV fid (logToJs l) =
        .vobj [("id", .vstr l.id),
               ("date", .vstr (strTake10 (jsToStr (jsOr (.vstr l.date)
                 (.vstr ""))))),
               ("exercise", .vstr (normalizeExercise (.vstr l.exercise))),
               ("weight", .vnum (.fin l.weight)),
               ("reps", .vnum (.fin l.reps)),
               ("note", if jsTrim s ≠ "" then .vstr s else .vundef)] := by
      simp only [logToJs, hn]
      rfl
    rw [he, if_pos hts, hdate, hexn]
    constructor
    · show (true && true && true && true && true &&
        EXERCISES.contains l.exercise) = true
      rw [hcont]
      rfl
    · show some
        ({ id := l.id, date := l.date, exercise := l.exercise,
           weight := l.weight, reps := l.reps, note := some s } : Log) = some l
      rw [← hn]

/-- **C5** For every collection of valid entries, the JSON export wraps
the encoded entries as `{version, logs}`; the import accepts both that
wrapper and the bare array, and on either form rebuilds exactly the
original collection, identifiers included. -/
theorem json_roundtrip (logs : List Log) (fresh : ℕ → String)
    (h : ∀ l ∈ logs, validLog l) :
    importJSON fresh (exportPayload logs) = logs ∧
      importJSON fresh (.varr (logs.map logToJs)) = logs := by
  have key : ∀ v, importArr v = logs.map logToJs →
      importJSON fresh v = logs := by
    intro v hv
    unfold importJSON importJSONv
    rw [hv, List.enum_map, List.map_map]
    rw [List.filter_eq_self.mpr ?_]
    · rw [List.filterMap_map]
      refine Eq.trans (filterMap_all_some _ Prod.snd _ (fun p hp => ?_)) ?_
      · exact (importElemV_logToJs (fresh p.1) p.2
          (h p.2 (snd_mem_of_mem_enumFrom _ _ _ hp))).2
      · exact List.enum_map_snd logs
    · intro a ha
      obtain ⟨p, hp, rfl⟩ := List.mem_map.mp ha
      exact (importElemV_logToJs (fresh p.1) p.2
        (h p.2 (snd_mem_of_mem_enumFrom _ _ _ hp))).1
  exact ⟨key _ rfl, key _ rfl⟩

/-- Witness for `json_roundtrip` on the three-entry sample collection. -/
theorem json_roundtrip_witness :
    (∀ l ∈ [rtLog1, rtLog2, rtLog3], validLog l) ∧
    (importJSON (fun _ => "f") (exportPayload [rtLog1, rtLog2, rtLog3]) =
        [rtLog1, rtLog2, rtLog3] ∧
      importJSON (fun _ => "f")
          (.varr ([rtLog1, rtLog2, rtLog3].map logToJs)) =
        [rtLog1, rtLog2, rtLog3]) :=
  ⟨by decide, json_roundtrip [rtLog1, rtLog2, rtLog3] (fun _ => "f")
    (by decide)⟩

end MuscleApp
